import Mathlib

/-! # Directory-block catch-up engine (state/dbstateCatchup.go)

A shallow embedding of the three height-keyed lists of the catch-up engine
(`StatesMissing`, `StatesWaiting`, `StatesReceived`), of the four goroutines of
`DBStateList.Catchup` (Scanner, Timeout sweeper, Mailbox, Dispatcher) and of the
marshalling and unmarshalling of directory blocks and of the chain of blocks in
memory (common/directoryBlock.go).

Conventions of the embedding

* A Go `*list.List` (package `container/list`) is a Lean list of its element
  values, front first.
* `uint32` heights are natural numbers; where the source does arithmetic on a
  height (`l.Base()+1` in `StatesReceived.GetNext`) the result is reduced
  modulo `2^32`.
* `container/list` clears the `next`, `prev` and `list` pointers of an element
  when it is removed, and `(*Element).Next` returns `nil` for an element whose
  `list` pointer is `nil`.  A loop `for e := l.Front(); e != nil; e = e.Next()`
  whose body removes `e` therefore ends right after that iteration.  `Remove`
  on an element that is no longer in the list does nothing.
* `time.Now()` is a parameter `now` of the operations that read the clock.
* A loop that the source can leave only through its condition takes a `fuel`
  argument where it may run on for ever; its result says whether it came to
  its end.
-/

/-! ## Definitions -/

/-- The modulus of `uint32` arithmetic. -/
def uint32Mod : Nat := 2 ^ 32

/-- The struct `MissingState`: a DBState known to exist but not available. -/
structure MissingState where
  height : Nat
  deriving DecidableEq, Repr

/-- The constructor `NewMissingState`. -/
def NewMissingState (height : Nat) : MissingState := { height := height }

/-- The struct `StatesMissing`, its `List` field front first (the `Notify`
channel is the stream of events handled by the Mailbox). -/
structure StatesMissing where
  list : List MissingState
  deriving DecidableEq, Repr

/-- The constructor `NewStatesMissing`. -/
def NewStatesMissing : StatesMissing := { list := [] }

/-- The heights held by a missing list, front first. -/
def StatesMissing.heights (l : StatesMissing) : List Nat :=
  l.list.map (fun s => s.height)

/-- The loop of `StatesMissing.Add`, over the elements from `l.List.Back()`
following `e.Prev()`: the argument is the list seen from the back, and so is
the result.  Falling off the front is `PushFront`. -/
def StatesMissing.addScan (height : Nat) : List MissingState → List MissingState
  | [] => [NewMissingState height]
  | s :: prev =>
    if height > s.height then
      -- InsertAfter(NewMissingState(height), e); return
      NewMissingState height :: s :: prev
    else if height = s.height then
      -- return
      s :: prev
    else
      s :: StatesMissing.addScan height prev

/-- The method `StatesMissing.Add`. -/
def StatesMissing.Add (l : StatesMissing) (height : Nat) : StatesMissing :=
  { list := (StatesMissing.addScan height l.list.reverse).reverse }

/-- The loop of `StatesMissing.Del`, from the front: the first element of the
given height is removed and the loop is left (`break`). -/
def StatesMissing.delScan (height : Nat) : List MissingState → List MissingState
  | [] => []
  | s :: next =>
    if s.height = height then next
    else s :: StatesMissing.delScan height next

/-- The method `StatesMissing.Del`. -/
def StatesMissing.Del (l : StatesMissing) (height : Nat) : StatesMissing :=
  { list := StatesMissing.delScan height l.list }

/-- The method `StatesMissing.Get`. -/
def StatesMissing.Get (l : StatesMissing) (height : Nat) : Option MissingState :=
  l.list.find? (fun s => s.height = height)

/-- The method `StatesMissing.GetNext`: pops the front element. -/
def StatesMissing.GetNext (l : StatesMissing) : Option MissingState × StatesMissing :=
  match l.list with
  | [] => (none, l)
  | s :: rest => (some s, { list := rest })

/-- The struct `WaitingState`; `requestedTime` is the clock reading taken by
`NewWaitingState`. -/
structure WaitingState where
  height : Nat
  requestedTime : Nat
  deriving DecidableEq, Repr

/-- The constructor `NewWaitingState`, with `time.Now()` as `now`. -/
def NewWaitingState (now : Nat) (height : Nat) : WaitingState :=
  { height := height, requestedTime := now }

/-- The struct `StatesWaiting`, its `List` field front first. -/
structure StatesWaiting where
  list : List WaitingState
  deriving DecidableEq, Repr

/-- The constructor `NewStatesWaiting`. -/
def NewStatesWaiting : StatesWaiting := { list := [] }

/-- The heights held by a waiting list, front first. -/
def StatesWaiting.heights (l : StatesWaiting) : List Nat :=
  l.list.map (fun s => s.height)

/-- The method `StatesWaiting.Add`: `PushBack(NewWaitingState(height))`. -/
def StatesWaiting.Add (now : Nat) (l : StatesWaiting) (height : Nat) : StatesWaiting :=
  { list := l.list ++ [NewWaitingState now height] }

/-- The loop of `StatesWaiting.Del`, from the front.  The body removes `e`
when its height matches; `e.Next()` of the removed element is `nil`, so the
loop ends there and the elements behind it are not visited. -/
def StatesWaiting.delScan (height : Nat) : List WaitingState → List WaitingState
  | [] => []
  | s :: next =>
    if s.height = height then next
    else s :: StatesWaiting.delScan height next

/-- The method `StatesWaiting.Del`. -/
def StatesWaiting.Del (l : StatesWaiting) (height : Nat) : StatesWaiting :=
  { list := StatesWaiting.delScan height l.list }

/-- The method `StatesWaiting.Get`. -/
def StatesWaiting.Get (l : StatesWaiting) (height : Nat) : Option WaitingState :=
  l.list.find? (fun s => s.height = height)

/-- The method `StatesWaiting.Has`. -/
def StatesWaiting.Has (l : StatesWaiting) (height : Nat) : Bool :=
  l.list.any (fun s => s.height = height)

/-- The method `StatesWaiting.Len`. -/
def StatesWaiting.Len (l : StatesWaiting) : Nat := l.list.length

/-- Modelled from the spec: the type `messages.DBStateMsg`, which is declared
outside the catch-up source.  The engine reads one thing from it, the height in
the header of its directory block (`msg.DirectoryBlock.GetHeader().GetDBHeight()`);
`content` stands for everything else the message carries and tells two
messages of one height apart. -/
structure DBStateMsg where
  dbHeight : Nat
  content : Nat
  deriving DecidableEq, Repr

/-- The struct `ReceivedState`. -/
structure ReceivedState where
  height : Nat
  msg : DBStateMsg
  deriving DecidableEq, Repr

/-- The constructor `NewReceivedState`: the height is read from the header of
the message. -/
def NewReceivedState (msg : DBStateMsg) : ReceivedState :=
  { height := msg.dbHeight, msg := msg }

/-- The struct `StatesReceived`: the list, front first, and `base`. -/
structure StatesReceived where
  list : List ReceivedState
  base : Nat
  deriving DecidableEq, Repr

/-- The constructor `NewStatesReceived`; `base` is the zero value. -/
def NewStatesReceived : StatesReceived := { list := [], base := 0 }

/-- The heights held by a received list, front first. -/
def StatesReceived.heights (l : StatesReceived) : List Nat :=
  l.list.map (fun s => s.height)

/-- The method `StatesReceived.Base`. -/
def StatesReceived.Base (l : StatesReceived) : Nat := l.base

/-- The loop of `StatesReceived.SetBase`, from the front, `base` being the new
base.  In the first two cases the body removes `e`, after which `e.Next()` is
`nil` and the loop ends; the `break` statements leave the `switch` only, so in
the third case the loop goes on with the next element. -/
def StatesReceived.setBaseScan (base : Nat) : List ReceivedState → List ReceivedState
  | [] => []
  | e :: next =>
    if e.height < base then
      -- case v < l.base: l.List.Remove(e)
      next
    else if e.height = base then
      -- case v == l.base: l.List.Remove(e); break
      next
    else
      -- case v > l.base: break
      e :: StatesReceived.setBaseScan base next

/-- The method `StatesReceived.SetBase`. -/
def StatesReceived.SetBase (l : StatesReceived) (height : Nat) : StatesReceived :=
  { list := StatesReceived.setBaseScan height l.list, base := height }

/-- The method `StatesReceived.HeighestRecieved`. -/
def StatesReceived.HeighestRecieved (l : StatesReceived) : Nat :=
  let height := match l.list.getLast? with
    | some s => s.height
    | none => 0
  if l.Base > height then l.Base else height

/-- The loop of `StatesReceived.Add`, over the elements from `l.List.Back()`
following `e.Prev()`: the argument is the list seen from the back, and so is
the result.  The element that is inserted is `NewReceivedState(msg)`, whose
height is the one in the header of `msg`; `height` is only compared. -/
def StatesReceived.addScan (height : Nat) (msg : DBStateMsg) :
    List ReceivedState → List ReceivedState
  | [] => [NewReceivedState msg]
  | s :: prev =>
    if height > s.height then
      -- InsertAfter(NewReceivedState(msg), e); return
      NewReceivedState msg :: s :: prev
    else if height = s.height then
      -- return
      s :: prev
    else
      s :: StatesReceived.addScan height msg prev

/-- The method `StatesReceived.Add`. -/
def StatesReceived.Add (l : StatesReceived) (height : Nat) (msg : DBStateMsg) :
    StatesReceived :=
  { l with list := (StatesReceived.addScan height msg l.list.reverse).reverse }

/-- The method `StatesReceived.Get`: the scan starts at the back. -/
def StatesReceived.Get (l : StatesReceived) (height : Nat) : Option ReceivedState :=
  l.list.reverse.find? (fun s => s.height = height)

/-- The method `StatesReceived.GetNext`: the returned state (or `nil`) and the
list afterwards.  In the first branch `SetBase(s.Height())` runs on a list whose
front element `e` has the height of the new base, so its loop removes `e` in
its first iteration; the `l.List.Remove(e)` that follows then finds `e` out of
the list and does nothing. -/
def StatesReceived.GetNext (l : StatesReceived) : Option ReceivedState × StatesReceived :=
  match l.list with
  | [] => (none, l)
  | s :: rest =>
    if s.height = (l.Base + 1) % uint32Mod then
      (some s, l.SetBase s.height)
    else if s.height ≤ l.Base then
      (none, { l with list := rest })
    else
      (none, l)

/-- The three lists the goroutines of `DBStateList.Catchup` share. -/
structure Engine where
  missing : StatesMissing
  waiting : StatesWaiting
  recieved : StatesReceived
  deriving DecidableEq, Repr

/-- The engine as `Catchup` finds it on a fresh state: three empty lists. -/
def Engine.empty : Engine :=
  { missing := NewStatesMissing, waiting := NewStatesWaiting, recieved := NewStatesReceived }

/-- What the Mailbox goroutine can receive in its `select`. -/
inductive MailboxEvent where
  | missingNotify (s : MissingState)
  | waitingNotify (s : WaitingState)
  | recievedNotify (m : DBStateMsg)
  deriving DecidableEq, Repr

/-- One iteration of the Mailbox loop of `Catchup` ("manage the state lists"),
handling the event `ev` at clock reading `now`. -/
def Mailbox (now : Nat) (st : Engine) (ev : MailboxEvent) : Engine :=
  match ev with
  | .missingNotify s =>
    if st.recieved.Get s.height = none then
      if !st.waiting.Has s.height then
        { st with missing := st.missing.Add s.height }
      else st
    else st
  | .waitingNotify s =>
    if !st.waiting.Has s.height then
      { st with waiting := st.waiting.Add now s.height }
    else st
  | .recievedNotify m =>
    let s := NewReceivedState m
    { st with waiting := st.waiting.Del s.height,
              recieved := st.recieved.Add s.height s.msg }

/-- The Mailbox loop over a finite sequence of events, each with the clock
reading at which it is handled. -/
def MailboxRun (st : Engine) : List (Nat × MailboxEvent) → Engine
  | [] => st
  | (now, ev) :: rest => MailboxRun (Mailbox now st ev) rest

/-- Scanner step 2 of `Catchup`: `if recieved.Base() < hs { recieved.SetBase(hs) }`. -/
def scannerBaseSync (hs : Nat) (l : StatesReceived) : StatesReceived :=
  if l.Base < hs then l.SetBase hs else l

/-- A call made on the received list by the goroutines that use it. -/
inductive ReceivedCall where
  | add (height : Nat) (msg : DBStateMsg)
  | getNext
  deriving DecidableEq, Repr

/-- A sequence of `Add` and `GetNext` calls on a received list: the results of
the `GetNext` calls that were not `nil`, in call order, and the list at the end. -/
def runReceivedCalls (l : StatesReceived) :
    List ReceivedCall → List ReceivedState × StatesReceived
  | [] => ([], l)
  | .add height msg :: rest => runReceivedCalls (l.Add height msg) rest
  | .getNext :: rest =>
    match l.GetNext with
    | (some s, l1) =>
      let r := runReceivedCalls l1 rest
      (s :: r.1, r.2)
    | (none, l1) => runReceivedCalls l1 rest

/-- Repeated `GetNext` calls, `n` of them: the results, `nil` ones included, and
the list at the end. -/
def getNextTimes : Nat → StatesReceived → List (Option ReceivedState) × StatesReceived
  | 0, l => ([], l)
  | n + 1, l =>
    let r := getNextTimes n l.GetNext.2
    (l.GetNext.1 :: r.1, r.2)

/-- Along a run of the Mailbox, every height that arrives on `waiting.Notify`
is outside the missing list at the moment it is handled, as it is when the
Dispatcher has popped it with `missing.GetNext` and nothing has put it back. -/
def waitingNotifyOffMissing (st : Engine) : List (Nat × MailboxEvent) → Bool
  | [] => true
  | (now, ev) :: rest =>
    (match ev with
      | .waitingNotify s => !(st.missing.heights.contains s.height)
      | _ => true) && waitingNotifyOffMissing (Mailbox now st ev) rest

/-! ### The goroutines of `Catchup` -/

/-- Scanner, "Get information about the known block height": the bound `hk`
of the last loop of the cycle, from `ha = GetHighestAck()` and
`hkn = GetHighestKnownBlock()`.  `hk` starts as the highest ack and is replaced
by the highest known block when that one is above `hk+2`. -/
def scannerCeiling (ha hkn : Nat) : Nat :=
  if hkn > (ha + 2) % uint32Mod then hkn else ha

/-- Scanner, "remove any states from the missing list that have been saved":
the loop over the missing list from the front, `visited` being the elements in
front of `e` and the second argument `e` and the elements behind it.  When the
height of `e` is at most `base`, `missing.Del(s.Height())` removes the first
element of that height.  If that is an element in front of `e`, `e` stays in
the list and the loop goes on; otherwise it is `e`, whose `e.Next()` is then
`nil`, and the loop ends. -/
def purgeMissingScan (base : Nat) : List MissingState → List MissingState → List MissingState
  | visited, [] => visited
  | visited, s :: next =>
    if s.height ≤ base then
      if visited.any (fun v => v.height = s.height) then
        purgeMissingScan base (StatesMissing.delScan s.height visited ++ [s]) next
      else
        (StatesMissing.Del { list := visited ++ s :: next } s.height).list
    else
      purgeMissingScan base (visited ++ [s]) next

/-- Scanner, "remove any states from the waiting list that have been saved":
the same loop over the waiting list, with `waiting.Del(s.Height())`. -/
def purgeWaitingScan (base : Nat) : List WaitingState → List WaitingState → List WaitingState
  | visited, [] => visited
  | visited, s :: next =>
    if s.height ≤ base then
      if visited.any (fun v => v.height = s.height) then
        purgeWaitingScan base (StatesWaiting.delScan s.height visited ++ [s]) next
      else
        (StatesWaiting.Del { list := visited ++ s :: next } s.height).list
    else
      purgeWaitingScan base (visited ++ [s]) next

/-- Scanner, from the base sync to the end of the two removal loops: the base
sync, then the loop over the missing list, then the loop over the waiting list,
both against the base as it is after the sync. -/
def scannerPurge (hs : Nat) (st : Engine) : Engine :=
  let recieved := scannerBaseSync hs st.recieved
  { missing := { list := purgeMissingScan recieved.Base [] st.missing.list },
    waiting := { list := purgeWaitingScan recieved.Base [] st.waiting.list },
    recieved := recieved }

/-- Scanner, "find gaps in the recieved list", the inner loop
`for n+1 < e.Next().Value.(*ReceivedState).Height()` with `next` the height of
`e.Next()`.  Neither `n` nor the list changes in the body, which sends
`NewMissingState(n + 1)`.  `fuel` bounds the number of sends: the result is the
heights sent and the fuel left when the loop was left, or none when the loop
was still running with the fuel used up. -/
def gapInner (n next : Nat) : Nat → List Nat × Option Nat
  | 0 => if (n + 1) % uint32Mod < next then ([], none) else ([], some 0)
  | fuel + 1 =>
    if (n + 1) % uint32Mod < next then
      let r := gapInner n next fuel
      ((n + 1) % uint32Mod :: r.1, r.2)
    else ([], some (fuel + 1))

/-- Scanner, "find gaps in the recieved list", the loop over the received list
from the front, with at most `fuel` sends on `missing.Notify`: the heights
sent, in order, and whether the loop came to its end. -/
def gapScan : List ReceivedState → Nat → List Nat × Bool
  | [], _ => ([], true)
  | [_], _ => ([], true)
  | a :: b :: rest, fuel =>
    match gapInner a.height b.height fuel with
    | (sent, none) => (sent, false)
    | (sent, some left) =>
      let r := gapScan (b :: rest) left
      (sent ++ r.1, r.2)

/-- Scanner, "add all known states after the last recieved to the missing
list": the loop `for n := ...; n < hk; n++` from the value `n`, with at most
`fuel` iterations; the heights sent on `missing.Notify`, or none when the loop
was still running with the fuel used up. -/
def tailLoop (hk : Nat) : Nat → Nat → Option (List Nat)
  | 0, n => if n < hk then none else some []
  | fuel + 1, n =>
    if n < hk then
      match tailLoop hk fuel ((n + 1) % uint32Mod) with
      | some sent => some (n :: sent)
      | none => none
    else some []

/-- Scanner, the last loop of the cycle, started at `recieved.HeighestRecieved() + 1`. -/
def scannerTail (fuel : Nat) (l : StatesReceived) (hk : Nat) : Option (List Nat) :=
  tailLoop hk fuel ((l.HeighestRecieved + 1) % uint32Mod)

/-- One cycle of the Scanner goroutine up to its `time.Sleep`, for the readings
`hs = GetHighestSavedBlk()`, `ha = GetHighestAck()` and
`hkn = GetHighestKnownBlock()`: the engine afterwards and the heights sent on
`missing.Notify`, in order; none when one of its loops was still running with
`fuel` used up. -/
def ScannerCycle (fuel : Nat) (hs ha hkn : Nat) (st : Engine) : Option (Engine × List Nat) :=
  let hk := scannerCeiling ha hkn
  let st1 := scannerPurge hs st
  match gapScan st1.recieved.list fuel with
  | (_, false) => none
  | (gaps, true) =>
    match scannerTail fuel st1.recieved hk with
    | none => none
    | some tail => some (st1, gaps ++ tail)

/-- The method `WaitingState.RequestAge`, `time.Since(s.requestedTime)` at the
clock reading `now`. -/
def WaitingState.RequestAge (now : Nat) (s : WaitingState) : Int :=
  (now : Int) - (s.requestedTime : Int)

/-- Timeout sweeper, one pass of the loop over the waiting list at clock
reading `now`, `visited` being the elements in front of `e`: the waiting list
afterwards and the states sent on `missing.Notify`, in order.  For an element
that has timed out `waiting.Del(s.Height())` removes the first element of that
height and the height is sent; when the removed element is `e` itself the loop
ends, as `e.Next()` is then `nil`. -/
def sweepScan (now : Nat) (requestTimeout : Int) :
    List WaitingState → List WaitingState → List WaitingState × List MissingState
  | visited, [] => (visited, [])
  | visited, s :: next =>
    if s.RequestAge now > requestTimeout then
      if visited.any (fun v => v.height = s.height) then
        let r := sweepScan now requestTimeout (StatesWaiting.delScan s.height visited ++ [s]) next
        (r.1, NewMissingState s.height :: r.2)
      else
        ((StatesWaiting.Del { list := visited ++ s :: next } s.height).list,
          [NewMissingState s.height])
    else
      sweepScan now requestTimeout (visited ++ [s]) next

/-- One pass of the Timeout sweeper goroutine up to its `time.Sleep`. -/
def TimeoutSweep (now : Nat) (requestTimeout : Int) (st : Engine) :
    Engine × List MissingState :=
  let r := sweepScan now requestTimeout [] st.waiting.list
  ({ st with waiting := { list := r.1 } }, r.2)

/-- One iteration of the Dispatcher goroutine ("request missing states from
the network") at clock reading `now`: the engine afterwards and the state sent
on `waiting.Notify`, if any.  `msgOk` says whether
`messages.NewDBStateMissing` returned a message. -/
def Dispatcher (now : Nat) (requestLimit : Int) (msgOk : Bool) (st : Engine) :
    Engine × Option WaitingState :=
  if (st.waiting.Len : Int) < requestLimit then
    match st.missing.GetNext with
    | (some s, missing1) =>
      if !st.waiting.Has s.height then
        if msgOk then
          ({ st with missing := missing1 }, some (NewWaitingState now s.height))
        else ({ st with missing := missing1 }, none)
      else ({ st with missing := missing1 }, none)
    | (none, missing1) => ({ st with missing := missing1 }, none)
  else (st, none)

/-- A step that changes the three lists or the base: an event handled by the
Mailbox, a `GetNext` call on the received list, or the Scanner from its base
sync to the end of its two removal loops. -/
inductive EngineStep where
  | mailbox (now : Nat) (ev : MailboxEvent)
  | getNext
  | scanner (hs : Nat)
  deriving DecidableEq, Repr

/-- The engine after one step. -/
def EngineStep.apply (st : Engine) : EngineStep → Engine
  | .mailbox now ev => Mailbox now st ev
  | .getNext => { st with recieved := st.recieved.GetNext.2 }
  | .scanner hs => scannerPurge hs st

/-- The engine after a finite sequence of steps. -/
def engineRun (st : Engine) : List EngineStep → Engine
  | [] => st
  | step :: rest => engineRun (EngineStep.apply st step) rest

/-- Every height in the missing list and in the waiting list is above the base. -/
def Engine.pendingAboveBase (st : Engine) : Prop :=
  (∀ h ∈ st.missing.heights, h > st.recieved.Base) ∧
    (∀ h ∈ st.waiting.heights, h > st.recieved.Base)

/-- A step that brings no height at or below the base into the missing or the
waiting list: a Mailbox event from `missing.Notify` or `waiting.Notify` whose
height is above the base, a payload, or a `GetNext` call that returns nothing
or a state whose height is in neither list.  Scanner steps are not among them. -/
def EngineStep.staysAbove (st : Engine) : EngineStep → Bool
  | .mailbox _ (.missingNotify s) => decide (s.height > st.recieved.Base)
  | .mailbox _ (.waitingNotify s) => decide (s.height > st.recieved.Base)
  | .mailbox _ (.recievedNotify _) => true
  | .getNext =>
    match st.recieved.GetNext.1 with
    | none => true
    | some s => !(st.missing.heights.contains s.height) &&
        !(st.waiting.heights.contains s.height)
  | .scanner _ => false

/-- Every step of a run is one of `EngineStep.staysAbove` in the state it is
taken in. -/
def runStaysAbove (st : Engine) : List EngineStep → Bool
  | [] => true
  | step :: rest =>
    EngineStep.staysAbove st step && runStaysAbove (EngineStep.apply st step) rest

/-- A step of a sequential run of the engine around the Dispatcher: a
Dispatcher iteration followed at once by the Mailbox handling what it sent on
`waiting.Notify`, or one of the steps that add nothing to the waiting list. -/
inductive DispatchStep where
  | dispatch (now : Nat) (msgOk : Bool) (nowMailbox : Nat)
  | missingNotify (now : Nat) (s : MissingState)
  | recievedNotify (now : Nat) (m : DBStateMsg)
  | sweep (now : Nat) (requestTimeout : Int)
  | scanner (hs : Nat)
  | getNext
  deriving DecidableEq, Repr

/-- The engine after one step of such a run. -/
def DispatchStep.apply (requestLimit : Int) (st : Engine) : DispatchStep → Engine
  | .dispatch now msgOk nowMailbox =>
    match Dispatcher now requestLimit msgOk st with
    | (st1, some w) => Mailbox nowMailbox st1 (.waitingNotify w)
    | (st1, none) => st1
  | .missingNotify now s => Mailbox now st (.missingNotify s)
  | .recievedNotify now m => Mailbox now st (.recievedNotify m)
  | .sweep now requestTimeout => (TimeoutSweep now requestTimeout st).1
  | .scanner hs => scannerPurge hs st
  | .getNext => { st with recieved := st.recieved.GetNext.2 }

/-- The engine after a finite sequence of such steps. -/
def dispatchRun (requestLimit : Int) (st : Engine) : List DispatchStep → Engine
  | [] => st
  | step :: rest => dispatchRun requestLimit (DispatchStep.apply requestLimit st step) rest

/-! ### Directory blocks (common/directoryBlock.go)

Bytes are natural numbers below 256, a `[]byte` is a list of them.  A pointer
to a hash is an optional value, `nil` being none; calling a method on a `nil`
hash fails, and a failing call makes the result none. -/

/-- Modelled from the spec: the constant `HASH_LENGTH`, declared outside
directoryBlock.go; hashes are 32 bytes long. -/
def HASH_LENGTH : Nat := 32

/-- Modelled from the spec: the type `Hash`, declared outside
directoryBlock.go: the bytes of the hash. -/
structure Hash where
  bytes : List Nat
  deriving DecidableEq, Repr

/-- Modelled from the spec: the method `Hash.MarshalBinary`, declared outside
directoryBlock.go: the bytes of the hash, without error. -/
def Hash.MarshalBinary : Option Hash → Option (List Nat)
  | none => none
  | some h => some h.bytes

/-- The bytes `binary.Write(&buf, binary.BigEndian, v)` appends for a `uint32`:
`byte(v >> 24)`, `byte(v >> 16)`, `byte(v >> 8)`, `byte(v)`. -/
def putUint32 (v : Nat) : List Nat :=
  [(v >>> 24) % 256, (v >>> 16) % 256, (v >>> 8) % 256, v % 256]

/-- The bytes `binary.Write(&buf, binary.BigEndian, v)` appends for a `uint64`. -/
def putUint64 (v : Nat) : List Nat :=
  [(v >>> 56) % 256, (v >>> 48) % 256, (v >>> 40) % 256, (v >>> 32) % 256,
    (v >>> 24) % 256, (v >>> 16) % 256, (v >>> 8) % 256, v % 256]

/-- The struct `DBlockHeader`. -/
structure DBlockHeader where
  Version : Nat
  NetworkID : Nat
  BodyMR : Option Hash
  PrevKeyMR : Option Hash
  PrevBlockHash : Option Hash
  BlockHeight : Nat
  StartTime : Nat
  EntryCount : Nat
  deriving DecidableEq, Repr

/-- The struct `DBEntry`, its marshalled fields. -/
structure DBEntry where
  MerkleRoot : Option Hash
  ChainID : Option Hash
  deriving DecidableEq, Repr

/-- The struct `DirectoryBlock`, its marshalled fields; the header and the
entries are taken to be there (no `nil` pointer among them). -/
structure DirectoryBlock where
  Header : DBlockHeader
  DBEntries : List DBEntry
  deriving DecidableEq, Repr

/-- The method `DBEntry.MarshalBinary`. -/
def DBEntry.MarshalBinary (e : DBEntry) : Option (List Nat) := do
  let buf : List Nat := []
  let data ← Hash.MarshalBinary e.ChainID
  let buf := buf ++ data
  let data ← Hash.MarshalBinary e.MerkleRoot
  let buf := buf ++ data
  return buf

/-- The method `DBlockHeader.MarshalBinary`.  A `nil` `BodyMR` is replaced by
the hash of 32 zero bytes before it is written. -/
def DBlockHeader.MarshalBinary (b : DBlockHeader) : Option (List Nat) := do
  let buf : List Nat := []
  let buf := buf ++ [b.Version]
  let buf := buf ++ putUint32 b.NetworkID
  let bodyMR : Option Hash :=
    match b.BodyMR with
    | none => some { bytes := List.replicate 32 0 }
    | some h => some h
  let data ← Hash.MarshalBinary bodyMR
  let buf := buf ++ data
  let data ← Hash.MarshalBinary b.PrevKeyMR
  let buf := buf ++ data
  let data ← Hash.MarshalBinary b.PrevBlockHash
  let buf := buf ++ data
  let buf := buf ++ putUint32 b.BlockHeight
  let buf := buf ++ putUint64 b.StartTime
  let buf := buf ++ putUint32 b.EntryCount
  return buf

/-- The method `DBlockHeader.MarshalledSize`. -/
def DBlockHeader.MarshalledSize : Nat :=
  let size := 0
  let size := size + 1
  let size := size + 4
  let size := size + HASH_LENGTH
  let size := size + HASH_LENGTH
  let size := size + HASH_LENGTH
  let size := size + 4
  let size := size + 8
  let size := size + 4
  size

/-- The loop of `DirectoryBlock.MarshalBinary`,
`for i := uint32(0); i < count; i = i + 1`: the first argument is the number of
iterations left, `count - i`; `b.DBEntries[i]` out of range fails. -/
def DirectoryBlock.marshalEntries (entries : List DBEntry) :
    Nat → Nat → List Nat → Option (List Nat)
  | 0, _, buf => some buf
  | left + 1, i, buf =>
    match entries[i]? with
    | none => none
    | some e =>
      match e.MarshalBinary with
      | none => none
      | some data => DirectoryBlock.marshalEntries entries left (i + 1) (buf ++ data)

/-- The method `DirectoryBlock.MarshalBinary`. -/
def DirectoryBlock.MarshalBinary (b : DirectoryBlock) : Option (List Nat) := do
  let buf : List Nat := []
  let data ← b.Header.MarshalBinary
  let buf := buf ++ data
  let count := b.DBEntries.length % uint32Mod
  let buf := buf ++ putUint32 count
  DirectoryBlock.marshalEntries b.DBEntries count 0 buf

/-- A pointer to a hash that is not `nil` and whose hash has 32 bytes. -/
def Hash.present32 : Option Hash → Bool
  | none => false
  | some h => decide (h.bytes.length = HASH_LENGTH)

/-- The bytes of the hash behind a pointer, none for `nil`. -/
def Hash.bytesOf : Option Hash → List Nat
  | none => []
  | some h => h.bytes

/-- The header hashes and the entry hashes of a directory block are present
32-byte values. -/
def DirectoryBlock.hashesPresent (b : DirectoryBlock) : Bool :=
  Hash.present32 b.Header.BodyMR && Hash.present32 b.Header.PrevKeyMR &&
    Hash.present32 b.Header.PrevBlockHash &&
    b.DBEntries.all (fun e => Hash.present32 e.ChainID && Hash.present32 e.MerkleRoot)

/-- The big-endian bytes of `n` in a field `width` bytes wide: byte `i`, from
the front, is the digit of weight `256 ^ (width - 1 - i)`. -/
def bigEndianField (width n : Nat) : List Nat :=
  (List.range width).map (fun i => n / 256 ^ (width - 1 - i) % 256)

/-- The header of the directory-block wire format in the words of the
specification: `version: u8`, `network_id: u32 BE`, `body_mr: 32 B`,
`prev_key_mr: 32 B`, `prev_block_hash: 32 B`, `block_height: u32 BE`,
`start_time: u64 BE`, `entry_count: u32 BE`. -/
def directoryHeaderWire (version network_id : Nat)
    (body_mr prev_key_mr prev_block_hash : List Nat)
    (block_height start_time entry_count : Nat) : List Nat :=
  [version] ++ bigEndianField 4 network_id ++ body_mr ++ prev_key_mr ++ prev_block_hash ++
    bigEndianField 4 block_height ++ bigEndianField 8 start_time ++
    bigEndianField 4 entry_count

/-- The body of the directory-block wire format in the words of the
specification: `count: u32 BE` followed by `count` entries of
`(chain_id: 32 B, merkle_root: 32 B)`. -/
def directoryBodyWire (entries : List (List Nat × List Nat)) : List Nat :=
  bigEndianField 4 entries.length ++ (entries.map (fun e => e.1 ++ e.2)).flatten

/-- The header, the body and the whole of a directory block in the wire format
of the specification. -/
def DirectoryBlock.headerWire (b : DirectoryBlock) : List Nat :=
  directoryHeaderWire b.Header.Version b.Header.NetworkID
    (Hash.bytesOf b.Header.BodyMR) (Hash.bytesOf b.Header.PrevKeyMR)
    (Hash.bytesOf b.Header.PrevBlockHash)
    b.Header.BlockHeight b.Header.StartTime b.Header.EntryCount

/-- The body of a directory block in the wire format of the specification. -/
def DirectoryBlock.bodyWire (b : DirectoryBlock) : List Nat :=
  directoryBodyWire
    (b.DBEntries.map (fun e => (Hash.bytesOf e.ChainID, Hash.bytesOf e.MerkleRoot)))

/-- A directory block with present 32-byte hashes and `2^32` entries, one more
than a `uint32` can count. -/
def blockOfUint32ModEntries : DirectoryBlock :=
  { Header := { Version := 0, NetworkID := 0,
                BodyMR := some { bytes := List.replicate 32 0 },
                PrevKeyMR := some { bytes := List.replicate 32 0 },
                PrevBlockHash := some { bytes := List.replicate 32 0 },
                BlockHeight := 0, StartTime := 0, EntryCount := 0 },
    DBEntries := List.replicate uint32Mod
      { MerkleRoot := some { bytes := List.replicate 32 0 },
        ChainID := some { bytes := List.replicate 32 0 } } }

/-! ### Unmarshalling (common/directoryBlock.go)

A slice expression or an index that reaches past the length of `data` fails
(the capacity of `data` is taken to be its length). -/

/-- The slice expression `data[n:]`. -/
def sliceFrom (data : List Nat) (n : Nat) : Option (List Nat) :=
  if n ≤ data.length then some (data.drop n) else none

/-- The slice expression `data[:n]`. -/
def sliceTo (data : List Nat) (n : Nat) : Option (List Nat) :=
  if n ≤ data.length then some (data.take n) else none

/-- The library function `binary.BigEndian.Uint32`:
`uint32(b[3]) | uint32(b[2])<<8 | uint32(b[1])<<16 | uint32(b[0])<<24`; the
shifted bytes have no bit in common, so the sum is their bitwise or. -/
def getUint32 : List Nat → Option Nat
  | b0 :: b1 :: b2 :: b3 :: _ => some (b3 + b2 * 2 ^ 8 + b1 * 2 ^ 16 + b0 * 2 ^ 24)
  | _ => none

/-- The library function `binary.BigEndian.Uint64`. -/
def getUint64 : List Nat → Option Nat
  | b0 :: b1 :: b2 :: b3 :: b4 :: b5 :: b6 :: b7 :: _ =>
    some (b7 + b6 * 2 ^ 8 + b5 * 2 ^ 16 + b4 * 2 ^ 24 + b3 * 2 ^ 32 + b2 * 2 ^ 40 +
      b1 * 2 ^ 48 + b0 * 2 ^ 56)
  | _ => none

/-- Modelled from the spec: the method `Hash.UnmarshalBinary`, declared outside
directoryBlock.go: the hash takes the first 32 bytes of `p` (a shorter `p`
leaves the missing bytes zero), without error. -/
def Hash.UnmarshalBinary (p : List Nat) : Hash :=
  { bytes := p.take HASH_LENGTH ++ List.replicate (HASH_LENGTH - p.length) 0 }

/-- The method `DBEntry.UnmarshalBinary`. -/
def DBEntry.UnmarshalBinary (data : List Nat) : Option DBEntry := do
  let chainData ← sliceTo data HASH_LENGTH
  let chainID := Hash.UnmarshalBinary chainData
  let merkleData ← sliceFrom data HASH_LENGTH
  let merkleRoot := Hash.UnmarshalBinary merkleData
  return { MerkleRoot := some merkleRoot, ChainID := some chainID }

/-- The method `DBlockHeader.UnmarshalBinary`. -/
def DBlockHeader.UnmarshalBinary (data : List Nat) : Option DBlockHeader := do
  -- b.Version, data = data[0], data[1:]
  let version ← data[0]?
  let data ← sliceFrom data 1
  -- b.NetworkID, data = binary.BigEndian.Uint32(data[0:4]), data[4:]
  let networkID ← (sliceTo data 4).bind getUint32
  let data ← sliceFrom data 4
  let bodyMR := Hash.UnmarshalBinary data
  let data ← sliceFrom data HASH_LENGTH
  let prevKeyMR := Hash.UnmarshalBinary data
  let data ← sliceFrom data HASH_LENGTH
  let prevBlockHash := Hash.UnmarshalBinary data
  let data ← sliceFrom data HASH_LENGTH
  -- b.BlockHeight, data = binary.BigEndian.Uint32(data[0:4]), data[4:]
  let blockHeight ← (sliceTo data 4).bind getUint32
  let data ← sliceFrom data 4
  -- b.StartTime, data = binary.BigEndian.Uint64(data[0:8]), data[8:]
  let startTime ← (sliceTo data 8).bind getUint64
  let data ← sliceFrom data 8
  -- b.EntryCount, data = binary.BigEndian.Uint32(data[0:4]), data[4:]
  let entryCount ← (sliceTo data 4).bind getUint32
  let _ ← sliceFrom data 4
  return { Version := version, NetworkID := networkID, BodyMR := some bodyMR,
           PrevKeyMR := some prevKeyMR, PrevBlockHash := some prevBlockHash,
           BlockHeight := blockHeight, StartTime := startTime, EntryCount := entryCount }

/-- The loop of `DirectoryBlock.UnmarshalBinary`,
`for i := uint32(0); i < count; i++`: the first argument is the number of
iterations left, `count - i`, the third the entries `b.DBEntries[0..i)` filled
in so far. -/
def DirectoryBlock.unmarshalEntries :
    Nat → List Nat → List DBEntry → Option (List DBEntry)
  | 0, _, filled => some filled
  | left + 1, data, filled =>
    match DBEntry.UnmarshalBinary data with
    | none => none
    | some e =>
      match sliceFrom data (HASH_LENGTH * 2) with
      | none => none
      | some data1 => DirectoryBlock.unmarshalEntries left data1 (filled ++ [e])

/-- The method `DirectoryBlock.UnmarshalBinary`: the block read from `data`,
none when a slice expression or an index fails.  The error result is `nil`
whenever the call returns. -/
def DirectoryBlock.UnmarshalBinary (data : List Nat) : Option DirectoryBlock := do
  let fbh ← DBlockHeader.UnmarshalBinary data
  let data ← sliceFrom data DBlockHeader.MarshalledSize
  -- count, data := binary.BigEndian.Uint32(data[0:4]), data[4:]
  let count ← (sliceTo data 4).bind getUint32
  let data ← sliceFrom data 4
  let entries ← DirectoryBlock.unmarshalEntries count data []
  return { Header := fbh, DBEntries := entries }

/-- The header fields of a directory block hold values of their Go types:
`byte`, `uint32` and `uint64`. -/
def DBlockHeader.wellTyped (h : DBlockHeader) : Bool :=
  decide (h.Version < 256) && decide (h.NetworkID < 2 ^ 32) &&
    decide (h.BlockHeight < 2 ^ 32) && decide (h.StartTime < 2 ^ 64) &&
    decide (h.EntryCount < 2 ^ 32)

/-! ### The chain of directory blocks in memory -/

/-- A Go slice of block pointers: `array` is the backing array from the first
element of the slice up to its capacity (a `nil` pointer being none), `len`
the length of the slice. -/
structure BlockSlice where
  array : List (Option DirectoryBlock)
  len : Nat
  deriving DecidableEq, Repr

/-- The built-in `cap` of a slice. -/
def BlockSlice.cap (s : BlockSlice) : Nat := s.array.length

/-- The elements of a slice, `s[0]` to `s[len(s)-1]`. -/
def BlockSlice.elems (s : BlockSlice) : List (Option DirectoryBlock) := s.array.take s.len

/-- The built-in `make([]*DirectoryBlock, len, cap)`: it fails when `len` is
above `cap`; the new array holds `nil` everywhere. -/
def BlockSlice.make (len cap : Nat) : Option BlockSlice :=
  if len ≤ cap then some { array := List.replicate cap none, len := len } else none

/-- The built-in `copy(dst, src)`: the first `min(len(dst), len(src))` elements
of `dst` become those of `src`. -/
def BlockSlice.copy (dst src : BlockSlice) : BlockSlice :=
  { dst with array := src.elems.take dst.len ++ dst.array.drop (min dst.len src.len) }

/-- The slice expression `s[0:high]`: it fails when `high` is above the capacity. -/
def BlockSlice.reslice (s : BlockSlice) (high : Nat) : Option BlockSlice :=
  if high ≤ s.cap then some { s with len := high } else none

/-- The assignment `s[i] = b`: it fails when `i` is not below the length. -/
def BlockSlice.setIndex (s : BlockSlice) (i : Nat) (b : DirectoryBlock) : Option BlockSlice :=
  if i < s.len then some { s with array := s.array.set i (some b) } else none

/-- The struct `DChain`, the field that `AddDBlockToDChain` works on. -/
structure DChain where
  Blocks : BlockSlice
  deriving DecidableEq, Repr

/-- The constructor `NewDChain`, the `Blocks` field as it sets it:
`d.Blocks = make([]*DirectoryBlock, 0)`, a slice of length 0 and capacity 0.
Its `NextBlock`, which it fills through `NewDirectoryBlock`, is not part of the
model. -/
def NewDChain : DChain := { Blocks := { array := [], len := 0 } }

/-- The method `DChain.AddDBlockToDChain`: the chain afterwards, none when a
slice operation fails.  `BlockHeight*2` and `BlockHeight+1` are `uint32`
arithmetic, and `cap` and `len` are converted to `uint32` for the comparisons. -/
def DChain.AddDBlockToDChain (c : DChain) (b : DirectoryBlock) : Option DChain := do
  -- Increase the slice capacity if needed
  let blocks ←
    if b.Header.BlockHeight ≥ c.Blocks.cap % uint32Mod then
      match BlockSlice.make c.Blocks.len ((b.Header.BlockHeight * 2) % uint32Mod) with
      | none => none
      | some temp => some (BlockSlice.copy temp c.Blocks)
    else some c.Blocks
  -- Increase the slice length if needed
  let blocks ←
    if b.Header.BlockHeight ≥ blocks.len % uint32Mod then
      blocks.reslice ((b.Header.BlockHeight + 1) % uint32Mod)
    else some blocks
  let blocks ← blocks.setIndex b.Header.BlockHeight b
  return { Blocks := blocks }

/-! ### Directory block info -/

/-- The struct `DirBlockInfo`; `BTCTxOffset` is an `int`, `BTCBlockHeight` an
`int32`. -/
structure DirBlockInfo where
  DBHash : Option Hash
  BTCTxHash : Option Hash
  BTCTxOffset : Int
  BTCBlockHeight : Int
  DBMerkleRoot : Option Hash
  BTCConfirmed : Bool
  deriving DecidableEq, Repr

/-- The bytes `binary.Write(&buf, binary.BigEndian, v)` appends for a value of
type `int`: none.  `int` is not a type of fixed size, so `binary.Write` writes
nothing and returns an error, which `DirBlockInfo.MarshalBinary` drops. -/
def binaryWriteInt (_v : Int) : List Nat := []

/-- The bytes `binary.Write(&buf, binary.BigEndian, v)` appends for an `int32`:
the four bytes of its two's complement. -/
def putInt32 (v : Int) : List Nat := putUint32 (v % 2 ^ 32).toNat

/-- The conversion `int32(v)` of a `uint32`. -/
def int32OfUint32 (v : Nat) : Int :=
  if v < 2 ^ 31 then (v : Int) else (v : Int) - 2 ^ 32

/-- The method `DirBlockInfo.MarshalBinary`. -/
def DirBlockInfo.MarshalBinary (b : DirBlockInfo) : Option (List Nat) := do
  let buf : List Nat := []
  let data ← Hash.MarshalBinary b.DBHash
  let buf := buf ++ data
  let data ← Hash.MarshalBinary b.BTCTxHash
  let buf := buf ++ data
  let buf := buf ++ binaryWriteInt b.BTCTxOffset
  let buf := buf ++ putInt32 b.BTCBlockHeight
  let data ← Hash.MarshalBinary b.DBMerkleRoot
  let buf := buf ++ data
  -- convert bool to one byte
  let buf := if b.BTCConfirmed then buf ++ [1] else buf ++ [0]
  return buf

/-- The method `DirBlockInfo.UnmarshalBinary`.  `data` is advanced after
`BTCTxHash`, after `BTCTxOffset` and after `BTCBlockHeight`, and nowhere else:
`DBHash` and `BTCTxHash` are both read from `data[:HASH_LENGTH]` of the input,
and `BTCConfirmed` from the first of the bytes `DBMerkleRoot` is read from. -/
def DirBlockInfo.UnmarshalBinary (data : List Nat) : Option DirBlockInfo := do
  let dbHash := Hash.UnmarshalBinary (← sliceTo data HASH_LENGTH)
  let btcTxHash := Hash.UnmarshalBinary (← sliceTo data HASH_LENGTH)
  let data ← sliceFrom data HASH_LENGTH
  -- b.BTCTxOffset = int(binary.BigEndian.Uint32(data[:4]))
  let btcTxOffset ← (sliceTo data 4).bind getUint32
  let data ← sliceFrom data 4
  -- b.BTCBlockHeight = int32(binary.BigEndian.Uint32(data[:4]))
  let btcBlockHeight ← (sliceTo data 4).bind getUint32
  let data ← sliceFrom data 4
  let dbMerkleRoot := Hash.UnmarshalBinary (← sliceTo data HASH_LENGTH)
  -- convert one byte to bool
  let first ← data[0]?
  return { DBHash := some dbHash, BTCTxHash := some btcTxHash,
           BTCTxOffset := (btcTxOffset : Int),
           BTCBlockHeight := int32OfUint32 btcBlockHeight,
           DBMerkleRoot := some dbMerkleRoot,
           BTCConfirmed := decide (first > 0) }

/-! ## Theorems -/

/-! ### The ordered insertion of `StatesMissing.Add` -/

theorem StatesMissing.addScan_mem (h x : Nat) (r : List MissingState) :
    x ∈ (StatesMissing.addScan h r).map (fun s => s.height) ↔
      x = h ∨ x ∈ r.map (fun s => s.height) := by
  induction r with
  | nil => simp [StatesMissing.addScan, NewMissingState]
  | cons s prev ih =>
    unfold StatesMissing.addScan
    split_ifs with h1 h2
    · simp [NewMissingState]
    · simp only [List.map_cons, List.mem_cons]
      constructor
      · intro hx; exact Or.inr hx
      · rintro (hx | hx)
        · exact Or.inl (hx.trans h2)
        · exact hx
    · simp only [List.map_cons, List.mem_cons, ih]
      tauto

theorem StatesMissing.addScan_desc (h : Nat) (r : List MissingState)
    (hr : (r.map (fun s => s.height)).Pairwise (· > ·)) :
    ((StatesMissing.addScan h r).map (fun s => s.height)).Pairwise (· > ·) := by
  induction r with
  | nil => simp [StatesMissing.addScan]
  | cons s prev ih =>
    unfold StatesMissing.addScan
    split_ifs with h1 h2
    · simp only [List.map_cons, List.pairwise_cons] at hr ⊢
      refine ⟨?_, hr⟩
      intro a ha
      rcases List.mem_cons.1 ha with ha | ha
      · simpa [NewMissingState, ha] using h1
      · have := hr.1 a ha
        simp only [NewMissingState]
        omega
    · exact hr
    · simp only [List.map_cons, List.pairwise_cons] at hr ⊢
      refine ⟨?_, ih hr.2⟩
      intro a ha
      rcases (StatesMissing.addScan_mem h a prev).1 ha with ha | ha
      · omega
      · exact hr.1 a ha

theorem StatesMissing.addScan_present (h : Nat) (r : List MissingState)
    (hr : (r.map (fun s => s.height)).Pairwise (· > ·))
    (hin : h ∈ r.map (fun s => s.height)) :
    StatesMissing.addScan h r = r := by
  induction r with
  | nil => simp at hin
  | cons s prev ih =>
    simp only [List.map_cons, List.pairwise_cons, List.mem_cons] at hr hin
    unfold StatesMissing.addScan
    split_ifs with h1 h2
    · rcases hin with hin | hin
      · omega
      · have := hr.1 h hin
        omega
    · rfl
    · rcases hin with hin | hin
      · exact absurd hin h2
      · rw [ih hr.2 hin]

theorem StatesMissing.heights_Add (l : StatesMissing) (h : Nat) :
    (l.Add h).heights =
      ((StatesMissing.addScan h l.list.reverse).map (fun s => s.height)).reverse := by
  simp [StatesMissing.Add, StatesMissing.heights, List.map_reverse]

theorem StatesMissing.heights_desc (l : StatesMissing)
    (hs : l.heights.Pairwise (· < ·)) :
    ((l.list.reverse).map (fun s => s.height)).Pairwise (· > ·) := by
  rw [List.map_reverse, List.pairwise_reverse]
  exact hs

/-- C1. `StatesMissing.Add` keeps the list sorted and free of duplicates: on a
list that is strictly ascending by height, after `Add(h)` the list is still
strictly ascending, its heights are the old ones and `h`, and when `h` was
already there the list is unchanged. -/
theorem StatesMissing_Add_sorted_dedup (l : StatesMissing) (h : Nat)
    (hs : l.heights.Pairwise (· < ·)) :
    (l.Add h).heights.Pairwise (· < ·) ∧
      (∀ x, x ∈ (l.Add h).heights ↔ x = h ∨ x ∈ l.heights) ∧
      (h ∈ l.heights → l.Add h = l) := by
  have hd := StatesMissing.heights_desc l hs
  refine ⟨?_, ?_, ?_⟩
  · rw [StatesMissing.heights_Add, List.pairwise_reverse]
    exact StatesMissing.addScan_desc h _ hd
  · intro x
    rw [StatesMissing.heights_Add, List.mem_reverse, StatesMissing.addScan_mem]
    simp [StatesMissing.heights]
  · intro hin
    have hin2 : h ∈ (l.list.reverse).map (fun s => s.height) := by
      simpa [StatesMissing.heights] using hin
    simp [StatesMissing.Add, StatesMissing.addScan_present h _ hd hin2]

theorem StatesMissing_Add_sorted_dedup_witness :
    (StatesMissing.Add { list := [⟨1⟩, ⟨3⟩, ⟨5⟩] } 4).heights.Pairwise (· < ·) ∧
      (∀ x, x ∈ (StatesMissing.Add { list := [⟨1⟩, ⟨3⟩, ⟨5⟩] } 4).heights ↔
        x = 4 ∨ x ∈ (StatesMissing.mk [⟨1⟩, ⟨3⟩, ⟨5⟩]).heights) ∧
      (4 ∈ (StatesMissing.mk [⟨1⟩, ⟨3⟩, ⟨5⟩]).heights →
        StatesMissing.Add { list := [⟨1⟩, ⟨3⟩, ⟨5⟩] } 4 = { list := [⟨1⟩, ⟨3⟩, ⟨5⟩] }) :=
  StatesMissing_Add_sorted_dedup { list := [⟨1⟩, ⟨3⟩, ⟨5⟩] } 4 (by decide)

/-! ### The ordered insertion of `StatesReceived.Add` -/

theorem StatesReceived.received_addScan_mem (h x : Nat) (msg : DBStateMsg) (hm : msg.dbHeight = h)
    (r : List ReceivedState) :
    x ∈ (StatesReceived.addScan h msg r).map (fun s => s.height) ↔
      x = h ∨ x ∈ r.map (fun s => s.height) := by
  induction r with
  | nil => simp [StatesReceived.addScan, NewReceivedState, hm]
  | cons s prev ih =>
    unfold StatesReceived.addScan
    split_ifs with h1 h2
    · simp [NewReceivedState, hm]
    · simp only [List.map_cons, List.mem_cons]
      constructor
      · intro hx; exact Or.inr hx
      · rintro (hx | hx)
        · exact Or.inl (hx.trans h2)
        · exact hx
    · simp only [List.map_cons, List.mem_cons, ih]
      tauto

theorem StatesReceived.received_addScan_desc (h : Nat) (msg : DBStateMsg) (hm : msg.dbHeight = h)
    (r : List ReceivedState)
    (hr : (r.map (fun s => s.height)).Pairwise (· > ·)) :
    ((StatesReceived.addScan h msg r).map (fun s => s.height)).Pairwise (· > ·) := by
  induction r with
  | nil => simp [StatesReceived.addScan]
  | cons s prev ih =>
    unfold StatesReceived.addScan
    split_ifs with h1 h2
    · simp only [List.map_cons, List.pairwise_cons] at hr ⊢
      refine ⟨?_, hr⟩
      intro a ha
      rcases List.mem_cons.1 ha with ha | ha
      · simpa [NewReceivedState, ha, hm] using h1
      · have := hr.1 a ha
        simp only [NewReceivedState, hm]
        omega
    · exact hr
    · simp only [List.map_cons, List.pairwise_cons] at hr ⊢
      refine ⟨?_, ih hr.2⟩
      intro a ha
      rcases (StatesReceived.received_addScan_mem h a msg hm prev).1 ha with ha | ha
      · omega
      · exact hr.1 a ha

theorem StatesReceived.received_addScan_present (h : Nat) (msg : DBStateMsg) (r : List ReceivedState)
    (hr : (r.map (fun s => s.height)).Pairwise (· > ·))
    (hin : h ∈ r.map (fun s => s.height)) :
    StatesReceived.addScan h msg r = r := by
  induction r with
  | nil => simp at hin
  | cons s prev ih =>
    simp only [List.map_cons, List.pairwise_cons, List.mem_cons] at hr hin
    unfold StatesReceived.addScan
    split_ifs with h1 h2
    · rcases hin with hin | hin
      · omega
      · have := hr.1 h hin
        omega
    · rfl
    · rcases hin with hin | hin
      · exact absurd hin h2
      · rw [ih hr.2 hin]

/-- When no element has the height that is added, the scan inserts the new
element at one place and keeps every other element where it was. -/
theorem StatesReceived.received_addScan_absent (h : Nat) (msg : DBStateMsg) (r : List ReceivedState)
    (hout : h ∉ r.map (fun s => s.height)) :
    ∃ pre suf, r = pre ++ suf ∧
      StatesReceived.addScan h msg r = pre ++ NewReceivedState msg :: suf := by
  induction r with
  | nil => exact ⟨[], [], rfl, rfl⟩
  | cons s prev ih =>
    simp only [List.map_cons, List.mem_cons, not_or] at hout
    unfold StatesReceived.addScan
    split_ifs with h1 h2
    · exact ⟨[], s :: prev, rfl, rfl⟩
    · exact absurd h2 hout.1
    · obtain ⟨pre, suf, e1, e2⟩ := ih hout.2
      exact ⟨s :: pre, suf, by rw [e1]; rfl, by rw [e2]; rfl⟩

theorem StatesReceived.received_heights_Add (l : StatesReceived) (h : Nat) (msg : DBStateMsg) :
    (l.Add h msg).heights =
      ((StatesReceived.addScan h msg l.list.reverse).map (fun s => s.height)).reverse := by
  simp [StatesReceived.Add, StatesReceived.heights, List.map_reverse]

theorem StatesReceived.received_heights_desc (l : StatesReceived)
    (hs : l.heights.Pairwise (· < ·)) :
    ((l.list.reverse).map (fun s => s.height)).Pairwise (· > ·) := by
  rw [List.map_reverse, List.pairwise_reverse]
  exact hs

/-- The list after `Add` of a height that no element has: one new element at
one place, every former element kept in place. -/
theorem StatesReceived.received_Add_absent (l : StatesReceived) (h : Nat) (msg : DBStateMsg)
    (hout : h ∉ l.heights) :
    ∃ pre suf, l.list = pre ++ suf ∧
      (l.Add h msg).list = pre ++ NewReceivedState msg :: suf := by
  have hout2 : h ∉ (l.list.reverse).map (fun s => s.height) := by
    simpa [StatesReceived.heights] using hout
  obtain ⟨pre, suf, e1, e2⟩ := StatesReceived.received_addScan_absent h msg _ hout2
  refine ⟨suf.reverse, pre.reverse, ?_, ?_⟩
  · have := congrArg List.reverse e1
    simpa using this
  · simp [StatesReceived.Add, e2]

/-- C2. `StatesReceived.Add` inserts in ascending order and the first writer
wins: on a list that is strictly ascending by height and a payload whose header
height is `h`, after `Add(h, payload)` the list is still strictly ascending; if
an element of height `h` was there the list is unchanged, otherwise exactly one
element `(h, payload)` is added and every former element is kept in place. -/
theorem StatesReceived_Add_ordered_first_wins (l : StatesReceived) (h : Nat)
    (msg : DBStateMsg) (hm : msg.dbHeight = h)
    (hs : l.heights.Pairwise (· < ·)) :
    (l.Add h msg).heights.Pairwise (· < ·) ∧
      (h ∈ l.heights → l.Add h msg = l) ∧
      (h ∉ l.heights → ∃ pre suf, l.list = pre ++ suf ∧
        (l.Add h msg).list = pre ++ { height := h, msg := msg } :: suf) ∧
      (l.Add h msg).Base = l.Base := by
  have hd := StatesReceived.received_heights_desc l hs
  refine ⟨?_, ?_, ?_, rfl⟩
  · rw [StatesReceived.received_heights_Add, List.pairwise_reverse]
    exact StatesReceived.received_addScan_desc h msg hm _ hd
  · intro hin
    have hin2 : h ∈ (l.list.reverse).map (fun s => s.height) := by
      simpa [StatesReceived.heights] using hin
    simp [StatesReceived.Add, StatesReceived.received_addScan_present h msg _ hd hin2]
  · intro hout
    have := StatesReceived.received_Add_absent l h msg hout
    simpa [NewReceivedState, hm] using this

theorem StatesReceived_Add_ordered_first_wins_witness :
    (StatesReceived.Add { list := [⟨1, ⟨1, 10⟩⟩, ⟨3, ⟨3, 30⟩⟩], base := 0 } 3 ⟨3, 99⟩).list
        = [⟨1, ⟨1, 10⟩⟩, ⟨3, ⟨3, 30⟩⟩] ∧
      (StatesReceived.Add { list := [⟨1, ⟨1, 10⟩⟩, ⟨3, ⟨3, 30⟩⟩], base := 0 } 3
        ⟨3, 99⟩).heights.Pairwise (· < ·) :=
  ⟨by decide,
   (StatesReceived_Add_ordered_first_wins
      { list := [⟨1, ⟨1, 10⟩⟩, ⟨3, ⟨3, 30⟩⟩], base := 0 } 3 ⟨3, 99⟩ rfl (by decide)).1⟩

/-! ### `StatesReceived.SetBase` -/

/-- C3. `StatesReceived.SetBase` evaluated on the list of heights 1, 2, 7 with
the new base 5: the base becomes 5, but only the element of height 1 is
removed; the element of height 2, which is not above the new base, stays. -/
theorem StatesReceived_SetBase_stops_after_first_removal :
    (StatesReceived.SetBase
        { list := [⟨1, ⟨1, 0⟩⟩, ⟨2, ⟨2, 0⟩⟩, ⟨7, ⟨7, 0⟩⟩], base := 0 } 5)
      = { list := [⟨2, ⟨2, 0⟩⟩, ⟨7, ⟨7, 0⟩⟩], base := 5 } ∧
    (StatesReceived.SetBase
        { list := [⟨1, ⟨1, 0⟩⟩, ⟨2, ⟨2, 0⟩⟩, ⟨7, ⟨7, 0⟩⟩], base := 0 } 5).list
      ≠ [⟨1, ⟨1, 0⟩⟩, ⟨2, ⟨2, 0⟩⟩, ⟨7, ⟨7, 0⟩⟩].filter (fun s => s.height > 5) := by
  decide

/-! ### `StatesReceived.GetNext` -/

/-- `SetBase` to the height of the front element removes that element and
nothing else. -/
theorem StatesReceived.SetBase_front (s : ReceivedState) (rest : List ReceivedState)
    (b : Nat) :
    StatesReceived.SetBase { list := s :: rest, base := b } s.height
      = { list := rest, base := s.height } := by
  simp [StatesReceived.SetBase, StatesReceived.setBaseScan]

/-- C4. `StatesReceived.GetNext` returns the next contiguous state exactly
when it is at the front: if the height of the first element is `base+1`, that
element is returned, `base` becomes its height and the list loses its first
element; if the list is empty or the height of its first element is above
`base+1`, the result is none and neither `base` nor the list changes. -/
theorem StatesReceived_GetNext_contiguous_front (l : StatesReceived)
    (hl : ∀ s ∈ l.list, s.height < uint32Mod) :
    (∀ s rest, l.list = s :: rest → s.height = l.Base + 1 →
        l.GetNext = (some s, { list := rest, base := s.height })) ∧
      (l.list = [] → l.GetNext = (none, l)) ∧
      (∀ s rest, l.list = s :: rest → s.height > l.Base + 1 → l.GetNext = (none, l)) := by
  refine ⟨?_, ?_, ?_⟩
  · intro s rest hlist hs
    have hlt : s.height < uint32Mod := hl s (by simp [hlist])
    have hmod : (l.Base + 1) % uint32Mod = l.Base + 1 := Nat.mod_eq_of_lt (by omega)
    obtain ⟨list, base⟩ := l
    simp only at hlist
    subst hlist
    simp only [StatesReceived.GetNext, hmod, hs, if_true]
    rw [← hs]
    exact congrArg (Prod.mk (some s)) (StatesReceived.SetBase_front s rest base)
  · intro hlist
    simp [StatesReceived.GetNext, hlist]
  · intro s rest hlist hs
    have hlt : s.height < uint32Mod := hl s (by simp [hlist])
    have hmod : (l.Base + 1) % uint32Mod = l.Base + 1 := Nat.mod_eq_of_lt (by omega)
    have h1 : ¬ s.height = l.Base + 1 := by omega
    have h2 : ¬ s.height ≤ l.Base := by omega
    simp [StatesReceived.GetNext, hlist, hmod, h1, h2]

theorem StatesReceived_GetNext_contiguous_front_witness :
    StatesReceived.GetNext { list := [⟨3, ⟨3, 0⟩⟩, ⟨5, ⟨5, 0⟩⟩], base := 2 }
      = (some ⟨3, ⟨3, 0⟩⟩, { list := [⟨5, ⟨5, 0⟩⟩], base := 3 }) :=
  (StatesReceived_GetNext_contiguous_front
      { list := [⟨3, ⟨3, 0⟩⟩, ⟨5, ⟨5, 0⟩⟩], base := 2 }
      (by decide)).1 ⟨3, ⟨3, 0⟩⟩ [⟨5, ⟨5, 0⟩⟩] rfl rfl

/-- A `GetNext` call on a list whose front element is not above `base`, while
`base+1` does not wrap: the front element is removed, the result is none and
`base` stays. -/
theorem StatesReceived.GetNext_stale (x : ReceivedState) (rest : List ReceivedState)
    (b : Nat) (hx : x.height ≤ b) (hb : b + 1 < uint32Mod) :
    StatesReceived.GetNext { list := x :: rest, base := b }
      = (none, { list := rest, base := b }) := by
  have hmod : (b + 1) % uint32Mod = b + 1 := Nat.mod_eq_of_lt hb
  have h1 : ¬ x.height = b + 1 := by omega
  simp [StatesReceived.GetNext, StatesReceived.Base, hmod, h1, hx]

/-- C5, as the code has it: stale front elements are dropped one per call.  On
a list that starts with the elements `stale`, all of height at most `base`,
followed by an element `s` of height `base+1`, a `GetNext` call with `stale`
not empty returns none, removes the first stale element only and keeps `base`;
after one such call per stale element the next call returns `s` and advances
`base` to its height. -/
theorem StatesReceived_GetNext_drops_one_stale_per_call (b : Nat)
    (stale : List ReceivedState) (s : ReceivedState) (rest : List ReceivedState)
    (hst : ∀ x ∈ stale, x.height ≤ b) (hs : s.height = b + 1)
    (hr : s.height < uint32Mod) :
    (∀ x tl, stale = x :: tl →
        StatesReceived.GetNext { list := stale ++ s :: rest, base := b }
          = (none, { list := tl ++ s :: rest, base := b })) ∧
      getNextTimes (stale.length + 1) { list := stale ++ s :: rest, base := b }
        = (List.replicate stale.length none ++ [some s],
            { list := rest, base := s.height }) := by
  have hb : b + 1 < uint32Mod := by omega
  refine ⟨?_, ?_⟩
  · intro x tl hx
    subst hx
    exact StatesReceived.GetNext_stale x _ b (hst x (by simp)) hb
  · induction stale with
    | nil =>
      have hmod : (b + 1) % uint32Mod = b + 1 := Nat.mod_eq_of_lt hb
      have hfront := StatesReceived.SetBase_front s rest b
      simp [getNextTimes, StatesReceived.GetNext, StatesReceived.Base, hmod, hs]
      rw [← hs]
      exact hfront
    | cons x tl ih =>
      have hx : x.height ≤ b := hst x (by simp)
      have hstep := StatesReceived.GetNext_stale x (tl ++ s :: rest) b hx hb
      have ih2 := ih (fun y hy => hst y (by simp [hy]))
      simp only [List.length_cons, List.cons_append, List.replicate_succ]
      rw [getNextTimes]
      simp only [hstep, ih2]

theorem StatesReceived_GetNext_drops_one_stale_per_call_witness :
    getNextTimes 3 { list := [⟨1, ⟨1, 0⟩⟩, ⟨2, ⟨2, 0⟩⟩, ⟨3, ⟨3, 0⟩⟩], base := 2 }
      = ([none, none, some ⟨3, ⟨3, 0⟩⟩], { list := [], base := 3 }) :=
  (StatesReceived_GetNext_drops_one_stale_per_call 2
      [⟨1, ⟨1, 0⟩⟩, ⟨2, ⟨2, 0⟩⟩] ⟨3, ⟨3, 0⟩⟩ [] (by decide) rfl (by decide)).2

/-- C5, the claim at a concrete input: base 2 and a list with a stale element
of height 2 followed by the element of height 3.  One `GetNext` call returns
none, keeps `base` at 2 and leaves the element of height 3 in the list. -/
theorem StatesReceived_GetNext_no_retry_counterexample :
    StatesReceived.GetNext { list := [⟨2, ⟨2, 0⟩⟩, ⟨3, ⟨3, 0⟩⟩], base := 2 }
        = (none, { list := [⟨3, ⟨3, 0⟩⟩], base := 2 }) ∧
      ¬ ((StatesReceived.GetNext
            { list := [⟨2, ⟨2, 0⟩⟩, ⟨3, ⟨3, 0⟩⟩], base := 2 }).1 = some ⟨3, ⟨3, 0⟩⟩ ∧
          (StatesReceived.GetNext
            { list := [⟨2, ⟨2, 0⟩⟩, ⟨3, ⟨3, 0⟩⟩], base := 2 }).2.Base = 3) := by
  decide

/-! ### In-order delivery and the base watermark -/

/-- A `GetNext` call that returns a state: its height is `base+1` in `uint32`
arithmetic, and it is the new base. -/
theorem StatesReceived.GetNext_some (l l1 : StatesReceived) (s : ReceivedState)
    (hg : l.GetNext = (some s, l1)) :
    s.height = (l.Base + 1) % uint32Mod ∧ l1.Base = s.height := by
  unfold StatesReceived.GetNext at hg
  split at hg
  · simp at hg
  · split_ifs at hg with h1 h2
    · simp only [Prod.mk.injEq, Option.some.injEq] at hg
      obtain ⟨e1, e2⟩ := hg
      subst e1
      subst e2
      exact ⟨h1, rfl⟩
    · simp at hg
    · simp at hg

/-- A `GetNext` call that returns none keeps the base. -/
theorem StatesReceived.GetNext_none (l l1 : StatesReceived)
    (hg : l.GetNext = (none, l1)) : l1.Base = l.Base := by
  unfold StatesReceived.GetNext at hg
  split at hg
  · simp only [Prod.mk.injEq, true_and] at hg
    rw [← hg]
  · split_ifs at hg with h1 h2
    · simp at hg
    · simp only [Prod.mk.injEq, true_and] at hg
      rw [← hg]
      rfl
    · simp only [Prod.mk.injEq, true_and] at hg
      rw [← hg]

theorem runReceivedCalls_kth (calls : List ReceivedCall) :
    ∀ (l : StatesReceived) (k : Nat) (s : ReceivedState),
      (runReceivedCalls l calls).1[k]? = some s → l.Base + (k + 1) < uint32Mod →
      s.height = l.Base + (k + 1) := by
  induction calls with
  | nil =>
    intro l k s hk _
    simp [runReceivedCalls] at hk
  | cons c rest ih =>
    intro l k s hk hr
    cases c with
    | add height msg =>
      simp only [runReceivedCalls] at hk
      exact ih (l.Add height msg) k s hk hr
    | getNext =>
      simp only [runReceivedCalls] at hk
      rcases hg : l.GetNext with ⟨_ | r, l1⟩
      · rw [hg] at hk
        simp only at hk
        have hb := StatesReceived.GetNext_none l l1 hg
        have := ih l1 k s hk (by rw [hb]; exact hr)
        rw [this, hb]
      · rw [hg] at hk
        simp only at hk
        obtain ⟨hh, hb⟩ := StatesReceived.GetNext_some l l1 r hg
        have hmod : (l.Base + 1) % uint32Mod = l.Base + 1 := Nat.mod_eq_of_lt (by omega)
        cases k with
        | zero =>
          simp only [List.getElem?_cons_zero, Option.some.injEq] at hk
          rw [← hk, hh, hmod]
        | succ j =>
          simp only [List.getElem?_cons_succ] at hk
          have hb2 : l1.Base = l.Base + 1 := by rw [hb, hh, hmod]
          have := ih l1 j s hk (by rw [hb2]; omega)
          rw [this, hb2]
          omega

/-- C6 (P4). In-order delivery: from any received list with base `b0` and for
any finite sequence of `Add` and `GetNext` calls, the `k`-th result of
`GetNext` that is not none (counted from 1) has height `b0+k`, as long as
`b0+k` is in the `uint32` range.  With base 0 and payloads added in the order
3, 1, 4, 2, four `GetNext` calls return the heights 1, 2, 3, 4 and the base
ends at 4. -/
theorem StatesReceived_GetNext_in_order_delivery :
    (∀ (l : StatesReceived) (calls : List ReceivedCall) (k : Nat) (s : ReceivedState),
      (runReceivedCalls l calls).1[k]? = some s → l.Base + (k + 1) < uint32Mod →
      s.height = l.Base + (k + 1)) ∧
    ((runReceivedCalls NewStatesReceived
        [.add 3 ⟨3, 30⟩, .add 1 ⟨1, 10⟩, .add 4 ⟨4, 40⟩, .add 2 ⟨2, 20⟩,
          .getNext, .getNext, .getNext, .getNext]).1.map (fun s => s.height) = [1, 2, 3, 4] ∧
      (runReceivedCalls NewStatesReceived
        [.add 3 ⟨3, 30⟩, .add 1 ⟨1, 10⟩, .add 4 ⟨4, 40⟩, .add 2 ⟨2, 20⟩,
          .getNext, .getNext, .getNext, .getNext]).2 = { list := [], base := 4 }) :=
  ⟨fun l calls => runReceivedCalls_kth calls l, by decide⟩

theorem StatesReceived_GetNext_in_order_delivery_witness :
    (⟨9, ⟨9, 0⟩⟩ : ReceivedState).height = 7 + (1 + 1) :=
  StatesReceived_GetNext_in_order_delivery.1
    { list := [⟨8, ⟨8, 0⟩⟩], base := 7 }
    [.getNext, .add 11 ⟨11, 0⟩, .add 9 ⟨9, 0⟩, .getNext, .getNext]
    1 ⟨9, ⟨9, 0⟩⟩ (by decide) (by decide)

/-- C7 (P2), as the code has it: the Scanner's base sync never lowers the
base, and `GetNext` never lowers it while the base is below the `uint32`
maximum. -/
theorem StatesReceived_base_non_decreasing (l : StatesReceived) (hs : Nat) :
    l.Base ≤ (scannerBaseSync hs l).Base ∧
      (l.Base + 1 < uint32Mod → l.Base ≤ l.GetNext.2.Base) := by
  refine ⟨?_, ?_⟩
  · unfold scannerBaseSync
    split_ifs with h
    · exact Nat.le_of_lt h
    · exact Nat.le_refl _
  · intro hb
    rcases hg : l.GetNext with ⟨_ | r, l1⟩
    · rw [StatesReceived.GetNext_none l l1 hg]
    · obtain ⟨hh, hb2⟩ := StatesReceived.GetNext_some l l1 r hg
      have hmod : (l.Base + 1) % uint32Mod = l.Base + 1 := Nat.mod_eq_of_lt hb
      simp only [hb2, hh, hmod]
      omega

theorem StatesReceived_base_non_decreasing_witness :
    (2 : Nat) ≤ (StatesReceived.GetNext
      { list := [⟨3, ⟨3, 0⟩⟩], base := 2 }).2.Base :=
  (StatesReceived_base_non_decreasing { list := [⟨3, ⟨3, 0⟩⟩], base := 2 } 0).2 (by decide)

/-- C7 (P2), the claim at a concrete input: with the base at the `uint32`
maximum and an element of height 0 at the front, `Base()+1` wraps to 0,
`GetNext` returns that element and the base falls from 4294967295 to 0. -/
theorem StatesReceived_GetNext_base_wraps_counterexample :
    (StatesReceived.GetNext { list := [⟨0, ⟨0, 0⟩⟩], base := 4294967295 }).2.Base = 0 ∧
      ¬ (StatesReceived.Base { list := [⟨0, ⟨0, 0⟩⟩], base := 4294967295 } ≤
          (StatesReceived.GetNext
            { list := [⟨0, ⟨0, 0⟩⟩], base := 4294967295 }).2.Base) := by
  decide

/-! ### The Mailbox loop -/

theorem StatesMissing.mem_heights_Add (l : StatesMissing) (h x : Nat) :
    x ∈ (l.Add h).heights ↔ x = h ∨ x ∈ l.heights := by
  rw [StatesMissing.heights_Add, List.mem_reverse, StatesMissing.addScan_mem]
  simp [StatesMissing.heights]

theorem StatesWaiting.Has_iff (l : StatesWaiting) (h : Nat) :
    l.Has h = true ↔ h ∈ l.heights := by
  simp only [StatesWaiting.Has, StatesWaiting.heights, List.any_eq_true, List.mem_map,
    decide_eq_true_eq]

theorem StatesWaiting.waiting_heights_Add (now : Nat) (l : StatesWaiting) (h : Nat) :
    (StatesWaiting.Add now l h).heights = l.heights ++ [h] := by
  simp [StatesWaiting.Add, StatesWaiting.heights, NewWaitingState]

theorem StatesWaiting.delScan_subset (h x : Nat) (l : List WaitingState)
    (hx : x ∈ (StatesWaiting.delScan h l).map (fun s => s.height)) :
    x ∈ l.map (fun s => s.height) := by
  induction l with
  | nil => simp [StatesWaiting.delScan] at hx
  | cons s next ih =>
    unfold StatesWaiting.delScan at hx
    split_ifs at hx with h1
    · exact List.mem_cons_of_mem _ hx
    · simp only [List.map_cons, List.mem_cons] at hx ⊢
      rcases hx with hx | hx
      · exact Or.inl hx
      · exact Or.inr (ih hx)

theorem StatesWaiting.delScan_nodup_not_mem (h : Nat) (l : List WaitingState)
    (hn : (l.map (fun s => s.height)).Nodup) :
    h ∉ (StatesWaiting.delScan h l).map (fun s => s.height) := by
  induction l with
  | nil => simp [StatesWaiting.delScan]
  | cons s next ih =>
    simp only [List.map_cons, List.nodup_cons] at hn
    unfold StatesWaiting.delScan
    split_ifs with h1
    · rw [← h1]
      exact hn.1
    · simp only [List.map_cons, List.mem_cons, not_or]
      exact ⟨fun e => h1 e.symm, ih hn.2⟩

/-- One Mailbox step keeps the missing and the waiting list disjoint, when the
height of a `waiting.Notify` event is not in the missing list. -/
theorem Mailbox_keeps_disjoint (now : Nat) (st : Engine) (ev : MailboxEvent)
    (hinv : ∀ h, h ∈ st.missing.heights → h ∉ st.waiting.heights)
    (hev : ∀ s, ev = .waitingNotify s → s.height ∉ st.missing.heights) :
    ∀ h, h ∈ (Mailbox now st ev).missing.heights →
      h ∉ (Mailbox now st ev).waiting.heights := by
  intro h
  cases ev with
  | missingNotify s =>
    simp only [Mailbox]
    split_ifs with h1 h2
    · simp only [StatesMissing.mem_heights_Add]
      rintro (e | hm)
      · subst e
        intro hw
        have := (StatesWaiting.Has_iff st.waiting s.height).2 hw
        simp [this] at h2
      · exact hinv h hm
    · exact hinv h
    · exact hinv h
  | waitingNotify s =>
    simp only [Mailbox]
    split_ifs with h1
    · simp only [StatesWaiting.waiting_heights_Add, List.mem_append, List.mem_singleton, not_or]
      intro hm
      refine ⟨hinv h hm, ?_⟩
      intro e
      subst e
      exact hev s rfl hm
    · exact hinv h
  | recievedNotify m =>
    simp only [Mailbox]
    intro hm hw
    exact hinv h hm (StatesWaiting.delScan_subset _ h _ hw)

theorem MailboxRun_keeps_disjoint (evs : List (Nat × MailboxEvent)) :
    ∀ (st : Engine), (∀ h, h ∈ st.missing.heights → h ∉ st.waiting.heights) →
      waitingNotifyOffMissing st evs = true →
      ∀ h, h ∈ (MailboxRun st evs).missing.heights →
        h ∉ (MailboxRun st evs).waiting.heights := by
  induction evs with
  | nil =>
    intro st hinv _
    exact hinv
  | cons e rest ih =>
    intro st hinv hg
    obtain ⟨now, ev⟩ := e
    simp only [waitingNotifyOffMissing, Bool.and_eq_true] at hg
    simp only [MailboxRun]
    refine ih _ (Mailbox_keeps_disjoint now st ev hinv ?_) hg.2
    intro s hs
    subst hs
    simpa using hg.1

/-- C8 (P1), as the code has it: from three empty lists, after any finite
sequence of Mailbox events in which every height arriving on `waiting.Notify`
is outside the missing list when it is handled, no height is both in the
missing and in the waiting list. -/
theorem Mailbox_missing_waiting_disjoint (evs : List (Nat × MailboxEvent))
    (hg : waitingNotifyOffMissing Engine.empty evs = true) (h : Nat) :
    ¬ (h ∈ (MailboxRun Engine.empty evs).missing.heights ∧
        h ∈ (MailboxRun Engine.empty evs).waiting.heights) := by
  rintro ⟨hm, hw⟩
  refine MailboxRun_keeps_disjoint evs Engine.empty ?_ hg h hm hw
  intro x hx
  simp [Engine.empty, NewStatesMissing, StatesMissing.heights] at hx

theorem Mailbox_missing_waiting_disjoint_witness :
    ¬ (6 ∈ (MailboxRun Engine.empty
          [(0, .missingNotify ⟨5⟩), (1, .waitingNotify ⟨6, 1⟩),
            (2, .missingNotify ⟨6⟩), (3, .recievedNotify ⟨5, 50⟩)]).missing.heights ∧
        6 ∈ (MailboxRun Engine.empty
          [(0, .missingNotify ⟨5⟩), (1, .waitingNotify ⟨6, 1⟩),
            (2, .missingNotify ⟨6⟩), (3, .recievedNotify ⟨5, 50⟩)]).waiting.heights) :=
  Mailbox_missing_waiting_disjoint
    [(0, .missingNotify ⟨5⟩), (1, .waitingNotify ⟨6, 1⟩),
      (2, .missingNotify ⟨6⟩), (3, .recievedNotify ⟨5, 50⟩)] (by decide) 6

/-- C8 (P1), the claim at a concrete input: from three empty lists the
Mailbox handles height 5 from `missing.Notify` and then height 5 from
`waiting.Notify`; afterwards 5 is in the missing list and in the waiting list. -/
theorem Mailbox_missing_waiting_overlap_counterexample :
    5 ∈ (MailboxRun Engine.empty
          [(0, .missingNotify ⟨5⟩), (1, .waitingNotify ⟨5, 1⟩)]).missing.heights ∧
      5 ∈ (MailboxRun Engine.empty
          [(0, .missingNotify ⟨5⟩), (1, .waitingNotify ⟨5, 1⟩)]).waiting.heights := by
  decide

/-- After `Add` of a payload whose header height is `h`, `Get(h)` finds an
element, whatever the list was. -/
theorem StatesReceived.Get_Add_ne_none (l : StatesReceived) (h : Nat) (msg : DBStateMsg)
    (hm : msg.dbHeight = h) : (l.Add h msg).Get h ≠ none := by
  have hin : h ∈ (StatesReceived.addScan h msg l.list.reverse).map (fun s => s.height) :=
    (StatesReceived.received_addScan_mem h h msg hm _).2 (Or.inl rfl)
  obtain ⟨s, hs, e⟩ := List.mem_map.1 hin
  intro hnone
  simp only [StatesReceived.Get, StatesReceived.Add, List.reverse_reverse,
    List.find?_eq_none, decide_eq_true_eq] at hnone
  exact hnone s hs e

/-- C9 (P6). Payload arrival: in an engine whose waiting list holds each
height at most once, after the Mailbox has handled one payload of header
height `h` from `recieved.Notify`, `StatesReceived.Get(h)` is not none and
`StatesWaiting.Has(h)` is false. -/
theorem Mailbox_payload_arrival (now : Nat) (st : Engine) (m : DBStateMsg)
    (hw : st.waiting.heights.Nodup) :
    (Mailbox now st (.recievedNotify m)).recieved.Get m.dbHeight ≠ none ∧
      (Mailbox now st (.recievedNotify m)).waiting.Has m.dbHeight = false := by
  refine ⟨?_, ?_⟩
  · simp only [Mailbox, NewReceivedState]
    exact StatesReceived.Get_Add_ne_none st.recieved m.dbHeight m rfl
  · have hnot := StatesWaiting.delScan_nodup_not_mem m.dbHeight st.waiting.list hw
    cases hhas : (Mailbox now st (.recievedNotify m)).waiting.Has m.dbHeight with
    | false => rfl
    | true =>
      exact absurd ((StatesWaiting.Has_iff _ _).1 hhas) hnot

theorem Mailbox_payload_arrival_witness :
    (Mailbox 9 { missing := { list := [] },
                 waiting := { list := [⟨4, 1⟩, ⟨6, 2⟩] },
                 recieved := { list := [⟨7, ⟨7, 70⟩⟩], base := 3 } }
        (.recievedNotify ⟨6, 60⟩)).recieved.Get 6 ≠ none ∧
      (Mailbox 9 { missing := { list := [] },
                   waiting := { list := [⟨4, 1⟩, ⟨6, 2⟩] },
                   recieved := { list := [⟨7, ⟨7, 70⟩⟩], base := 3 } }
        (.recievedNotify ⟨6, 60⟩)).waiting.Has 6 = false :=
  Mailbox_payload_arrival 9
    { missing := { list := [] },
      waiting := { list := [⟨4, 1⟩, ⟨6, 2⟩] },
      recieved := { list := [⟨7, ⟨7, 70⟩⟩], base := 3 } } ⟨6, 60⟩ (by decide)

/-- C10, as the code has it: `StatesReceived.Add` does not look at the base.
For a payload whose header height `h` is at most `Base()` and is not the height
of an element of the list, `Add(h, payload)` inserts the element `(h, payload)`:
the list gains that one element and keeps every former one in place, the base
is unchanged, and the height `h`, not above the base, is in the list afterwards. -/
theorem StatesReceived_Add_inserts_stale (l : StatesReceived) (h : Nat) (msg : DBStateMsg)
    (hm : msg.dbHeight = h) (hstale : h ≤ l.Base) (hout : h ∉ l.heights) :
    (∃ pre suf, l.list = pre ++ suf ∧
        (l.Add h msg).list = pre ++ { height := h, msg := msg } :: suf) ∧
      (l.Add h msg).Base = l.Base ∧
      (l.Add h msg).list ≠ l.list ∧
      (∃ x ∈ (l.Add h msg).heights, x ≤ (l.Add h msg).Base) := by
  obtain ⟨pre, suf, e1, e2⟩ := StatesReceived.received_Add_absent l h msg hout
  have e3 : (l.Add h msg).list = pre ++ { height := h, msg := msg } :: suf := by
    simpa [NewReceivedState, hm] using e2
  refine ⟨⟨pre, suf, e1, e3⟩, rfl, ?_, ?_⟩
  · intro heq
    have hlen := congrArg List.length heq
    rw [e3, e1] at hlen
    simp at hlen
  · refine ⟨h, ?_, hstale⟩
    simp [StatesReceived.heights, e3]

theorem StatesReceived_Add_inserts_stale_witness :
    (StatesReceived.Add { list := [⟨7, ⟨7, 70⟩⟩], base := 5 } 3 ⟨3, 30⟩).list
      ≠ [⟨7, ⟨7, 70⟩⟩] :=
  (StatesReceived_Add_inserts_stale { list := [⟨7, ⟨7, 70⟩⟩], base := 5 } 3 ⟨3, 30⟩
    rfl (by decide) (by decide)).2.2.1

/-- C10, the claim at a concrete input: base 5, a list holding only height 7
(so no height at or below the base) and a payload of header height 3.
`Add(3, payload)` changes the list, which then holds the height 3. -/
theorem StatesReceived_Add_stale_counterexample :
    StatesReceived.Add { list := [⟨7, ⟨7, 70⟩⟩], base := 5 } 3 ⟨3, 30⟩
        = { list := [⟨3, ⟨3, 30⟩⟩, ⟨7, ⟨7, 70⟩⟩], base := 5 } ∧
      (∀ x ∈ (StatesReceived.mk [⟨7, ⟨7, 70⟩⟩] 5).heights, x > 5) ∧
      ¬ (∀ x ∈ (StatesReceived.Add { list := [⟨7, ⟨7, 70⟩⟩], base := 5 } 3
            ⟨3, 30⟩).heights, x > 5) := by
  decide

/-! ### Pending heights and the base -/

/-- One step that brings in no height at or below the base keeps every pending
height above the base. -/
theorem EngineStep_keeps_pendingAboveBase (st : Engine) (step : EngineStep)
    (hinv : st.pendingAboveBase) (hg : EngineStep.staysAbove st step = true) :
    (EngineStep.apply st step).pendingAboveBase := by
  obtain ⟨hm, hw⟩ := hinv
  cases step with
  | mailbox now ev =>
    cases ev with
    | missingNotify s =>
      simp only [EngineStep.staysAbove, decide_eq_true_eq] at hg
      simp only [EngineStep.apply, Mailbox]
      split_ifs with h1 h2
      · refine ⟨?_, hw⟩
        intro h hh
        rcases (StatesMissing.mem_heights_Add _ _ _).1 hh with e | hh
        · rw [e]; exact hg
        · exact hm h hh
      · exact ⟨hm, hw⟩
      · exact ⟨hm, hw⟩
    | waitingNotify s =>
      simp only [EngineStep.staysAbove, decide_eq_true_eq] at hg
      simp only [EngineStep.apply, Mailbox]
      split_ifs with h1
      · refine ⟨hm, ?_⟩
        intro h hh
        rw [StatesWaiting.waiting_heights_Add] at hh
        rcases List.mem_append.1 hh with hh | hh
        · exact hw h hh
        · rw [List.mem_singleton.1 hh]; exact hg
      · exact ⟨hm, hw⟩
    | recievedNotify m =>
      simp only [EngineStep.apply, Mailbox]
      refine ⟨hm, ?_⟩
      intro h hh
      exact hw h (StatesWaiting.delScan_subset _ h _ hh)
  | getNext =>
    simp only [EngineStep.staysAbove] at hg
    simp only [EngineStep.apply]
    rcases hgn : st.recieved.GetNext with ⟨_ | r, l1⟩
    · have hb := StatesReceived.GetNext_none _ _ hgn
      refine ⟨?_, ?_⟩
      · intro h hh
        show h > l1.Base
        rw [hb]; exact hm h hh
      · intro h hh
        show h > l1.Base
        rw [hb]; exact hw h hh
    · obtain ⟨hh1, hb⟩ := StatesReceived.GetNext_some _ _ _ hgn
      rw [hgn] at hg
      simp only [List.elem_eq_mem, Bool.and_eq_true, Bool.not_eq_eq_eq_not, Bool.not_true,
        decide_eq_false_iff_not] at hg
      have hle : r.height ≤ st.recieved.Base + 1 := by
        rw [hh1]; exact Nat.mod_le _ _
      refine ⟨?_, ?_⟩
      · intro h hh
        show h > l1.Base
        have h1 := hm h hh
        have h2 : h ≠ r.height := fun e => hg.1 (e ▸ hh)
        rw [hb]; omega
      · intro h hh
        show h > l1.Base
        have h1 := hw h hh
        have h2 : h ≠ r.height := fun e => hg.2 (e ▸ hh)
        rw [hb]; omega
  | scanner hs =>
    simp [EngineStep.staysAbove] at hg

theorem engineRun_keeps_pendingAboveBase (steps : List EngineStep) :
    ∀ (st : Engine), st.pendingAboveBase → runStaysAbove st steps = true →
      (engineRun st steps).pendingAboveBase := by
  induction steps with
  | nil =>
    intro st hinv _
    exact hinv
  | cons step rest ih =>
    intro st hinv hg
    simp only [runStaysAbove, Bool.and_eq_true] at hg
    exact ih _ (EngineStep_keeps_pendingAboveBase st step hinv hg.1) hg.2

/-- C11 (P3), as the code has it: in every state reached from the empty engine
by Mailbox events and `GetNext` calls in which each height arriving on
`missing.Notify` or `waiting.Notify` is above the base when it is handled and
each state returned by `GetNext` has a height that is neither in the missing
nor in the waiting list, every height in the missing list or in the waiting
list is above the base. -/
theorem Engine_pending_above_base (steps : List EngineStep)
    (hg : runStaysAbove Engine.empty steps = true) (h : Nat)
    (hh : h ∈ (engineRun Engine.empty steps).missing.heights ∨
      h ∈ (engineRun Engine.empty steps).waiting.heights) :
    h > (engineRun Engine.empty steps).recieved.Base := by
  have hinv : Engine.empty.pendingAboveBase := by
    constructor <;> intro x hx <;>
      simp [Engine.empty, NewStatesMissing, NewStatesWaiting, StatesMissing.heights,
        StatesWaiting.heights] at hx
  obtain ⟨hm, hw⟩ := engineRun_keeps_pendingAboveBase steps Engine.empty hinv hg
  rcases hh with hh | hh
  · exact hm h hh
  · exact hw h hh

theorem Engine_pending_above_base_witness :
    3 > (engineRun Engine.empty
      [.mailbox 0 (.missingNotify ⟨3⟩), .mailbox 1 (.recievedNotify ⟨1, 10⟩), .getNext,
        .mailbox 2 (.waitingNotify ⟨2, 2⟩)]).recieved.Base :=
  Engine_pending_above_base
    [.mailbox 0 (.missingNotify ⟨3⟩), .mailbox 1 (.recievedNotify ⟨1, 10⟩), .getNext,
      .mailbox 2 (.waitingNotify ⟨2, 2⟩)] (by decide) 3 (Or.inl (by decide))

/-- C11 (P3), the claim at a concrete input: from the empty engine the Mailbox
handles height 1 from `missing.Notify` and then a payload of height 1, and
`GetNext` delivers it.  The base is then 1 and height 1 is still in the missing
list. -/
theorem Engine_pending_at_base_counterexample :
    (engineRun Engine.empty
        [.mailbox 0 (.missingNotify ⟨1⟩), .mailbox 1 (.recievedNotify ⟨1, 10⟩),
          .getNext]).recieved.Base = 1 ∧
      1 ∈ (engineRun Engine.empty
        [.mailbox 0 (.missingNotify ⟨1⟩), .mailbox 1 (.recievedNotify ⟨1, 10⟩),
          .getNext]).missing.heights ∧
      ¬ (∀ h ∈ (engineRun Engine.empty
          [.mailbox 0 (.missingNotify ⟨1⟩), .mailbox 1 (.recievedNotify ⟨1, 10⟩),
            .getNext]).missing.heights,
        h > (engineRun Engine.empty
          [.mailbox 0 (.missingNotify ⟨1⟩), .mailbox 1 (.recievedNotify ⟨1, 10⟩),
            .getNext]).recieved.Base) := by
  decide

/-! ### `StatesWaiting.Del` and `StatesWaiting.Add` -/

/-- The scan of `StatesWaiting.Del` touches no entry of another height: the
entries of the other heights are the former ones, in their former order. -/
theorem StatesWaiting.delScan_filter_ne (h : Nat) (l : List WaitingState) :
    (StatesWaiting.delScan h l).filter (fun s => decide (s.height ≠ h))
      = l.filter (fun s => decide (s.height ≠ h)) := by
  induction l with
  | nil => rfl
  | cons s next ih =>
    unfold StatesWaiting.delScan
    split_ifs with h1
    · have hp : decide (s.height ≠ h) = false := by simp [h1]
      rw [List.filter_cons, hp]
      rfl
    · rw [List.filter_cons, List.filter_cons, ih]

/-- On a list without the height the scan of `StatesWaiting.Del` changes nothing. -/
theorem StatesWaiting.delScan_absent (h : Nat) (l : List WaitingState)
    (hout : h ∉ l.map (fun s => s.height)) : StatesWaiting.delScan h l = l := by
  induction l with
  | nil => rfl
  | cons s next ih =>
    simp only [List.map_cons, List.mem_cons, not_or] at hout
    unfold StatesWaiting.delScan
    rw [if_neg (fun e => hout.1 e.symm), ih hout.2]

/-- On a list that holds each height at most once the scan of
`StatesWaiting.Del` leaves exactly the entries of the other heights. -/
theorem StatesWaiting.delScan_nodup_eq_filter (h : Nat) (l : List WaitingState)
    (hn : (l.map (fun s => s.height)).Nodup) :
    StatesWaiting.delScan h l = l.filter (fun s => decide (s.height ≠ h)) := by
  induction l with
  | nil => rfl
  | cons s next ih =>
    simp only [List.map_cons, List.nodup_cons] at hn
    unfold StatesWaiting.delScan
    split_ifs with h1
    · have hout : h ∉ next.map (fun s => s.height) := h1 ▸ hn.1
      have hall : ∀ x ∈ next, decide (x.height ≠ h) = true := by
        intro x hx
        simp only [decide_eq_true_eq]
        intro e
        exact hout (List.mem_map.2 ⟨x, hx, e⟩)
      have hp : decide (s.height ≠ h) = false := by simp [h1]
      rw [List.filter_cons, hp, List.filter_eq_self.2 hall]
      rfl
    · have hp : decide (s.height ≠ h) = true := by simp [h1]
      rw [List.filter_cons, hp, ih hn.2]
      rfl

/-- The scan of `StatesWaiting.Del` keeps a list free of duplicate heights so. -/
theorem StatesWaiting.delScan_nodup (h : Nat) (l : List WaitingState)
    (hn : (l.map (fun s => s.height)).Nodup) :
    ((StatesWaiting.delScan h l).map (fun s => s.height)).Nodup := by
  rw [StatesWaiting.delScan_nodup_eq_filter h l hn]
  exact hn.sublist ((List.filter_sublist l).map _)

/-- The Mailbox keeps the waiting list free of duplicate heights: its only call
of `StatesWaiting.Add` is behind `!waiting.Has(s.Height())`. -/
theorem Mailbox_keeps_waiting_nodup (now : Nat) (st : Engine) (ev : MailboxEvent)
    (hn : st.waiting.heights.Nodup) : (Mailbox now st ev).waiting.heights.Nodup := by
  cases ev with
  | missingNotify s =>
    simp only [Mailbox]
    split_ifs <;> exact hn
  | waitingNotify s =>
    simp only [Mailbox]
    split_ifs with h1
    · rw [StatesWaiting.waiting_heights_Add]
      have hout : s.height ∉ st.waiting.heights := by
        intro hin
        have := (StatesWaiting.Has_iff st.waiting s.height).2 hin
        simp [this] at h1
      exact List.Nodup.append hn (List.nodup_singleton _)
        (by
          intro a ha hb
          rw [List.mem_singleton.1 hb] at ha
          exact hout ha)
    · exact hn
  | recievedNotify m =>
    simp only [Mailbox]
    exact StatesWaiting.delScan_nodup _ _ hn

/-- C12, as the code has it: `StatesWaiting.Del` removes the first match.  On
every waiting list `Del(h)` keeps the entries of every other height in their
former order, and on a list without `h` it changes nothing; on a waiting list
that holds each height at most once, after `Del(h)` no entry of height `h`
remains (`Has(h)` is false) and the list is the former one without that entry. -/
theorem StatesWaiting_Del_removes_the_match (l : StatesWaiting) (h : Nat) :
    (l.heights.Nodup →
        (l.Del h).Has h = false ∧
          (l.Del h).list = l.list.filter (fun s => decide (s.height ≠ h))) ∧
      (l.Del h).list.filter (fun s => decide (s.height ≠ h))
        = l.list.filter (fun s => decide (s.height ≠ h)) ∧
      (h ∉ l.heights → l.Del h = l) := by
  refine ⟨?_, StatesWaiting.delScan_filter_ne h l.list, ?_⟩
  · intro hn
    refine ⟨?_, StatesWaiting.delScan_nodup_eq_filter h l.list hn⟩
    have hnot := StatesWaiting.delScan_nodup_not_mem h l.list hn
    cases hhas : (l.Del h).Has h with
    | false => rfl
    | true => exact absurd ((StatesWaiting.Has_iff _ _).1 hhas) hnot
  · intro hout
    have := StatesWaiting.delScan_absent h l.list hout
    cases l
    simp only [StatesWaiting.Del] at this ⊢
    rw [this]

theorem StatesWaiting_Del_removes_the_match_witness :
    (StatesWaiting.Del { list := [⟨4, 0⟩, ⟨5, 1⟩, ⟨6, 2⟩] } 5).Has 5 = false ∧
      (StatesWaiting.Del { list := [⟨4, 0⟩, ⟨5, 1⟩, ⟨6, 2⟩] } 5).list
        = [⟨4, 0⟩, ⟨6, 2⟩] :=
  (StatesWaiting_Del_removes_the_match { list := [⟨4, 0⟩, ⟨5, 1⟩, ⟨6, 2⟩] } 5).1 (by decide)

/-- C12, the claim at a concrete input: a waiting list that holds height 5
twice.  `Del(5)` removes the first entry of height 5 and stops; the second
entry of height 5 stays and `Has(5)` is still true. -/
theorem StatesWaiting_Del_duplicate_counterexample :
    StatesWaiting.Del { list := [⟨4, 0⟩, ⟨5, 1⟩, ⟨6, 2⟩, ⟨5, 3⟩] } 5
        = { list := [⟨4, 0⟩, ⟨6, 2⟩, ⟨5, 3⟩] } ∧
      (StatesWaiting.Del { list := [⟨4, 0⟩, ⟨5, 1⟩, ⟨6, 2⟩, ⟨5, 3⟩] } 5).Has 5 = true := by
  decide

/-- C13, as the code has it: `StatesWaiting.Add` always appends one entry with
the clock reading as its `requestedTime` and changes no entry that is there.
Heights are kept unique by the `waiting.Notify` branch of the Mailbox: on a
waiting list that holds height `h` the branch leaves the engine unchanged, on a
list without `h` it appends exactly one entry of height `h`. -/
theorem StatesWaiting_Add_appends_Mailbox_checks (now : Nat) (st : Engine)
    (w : WaitingState) :
    (st.waiting.Add now w.height).list
        = st.waiting.list ++ [{ height := w.height, requestedTime := now }] ∧
      (st.waiting.Has w.height = true → Mailbox now st (.waitingNotify w) = st) ∧
      (st.waiting.Has w.height = false →
        Mailbox now st (.waitingNotify w)
          = { st with waiting :=
                { list := st.waiting.list ++ [{ height := w.height, requestedTime := now }] } }) := by
  refine ⟨rfl, ?_, ?_⟩
  · intro hh
    simp [Mailbox, hh]
  · intro hh
    simp [Mailbox, hh, StatesWaiting.Add, NewWaitingState]

theorem StatesWaiting_Add_appends_Mailbox_checks_witness :
    Mailbox 9 { missing := { list := [] }, waiting := { list := [⟨5, 1⟩] },
                recieved := { list := [], base := 0 } } (.waitingNotify ⟨5, 8⟩)
      = { missing := { list := [] }, waiting := { list := [⟨5, 1⟩] },
          recieved := { list := [], base := 0 } } :=
  (StatesWaiting_Add_appends_Mailbox_checks 9
    { missing := { list := [] }, waiting := { list := [⟨5, 1⟩] },
      recieved := { list := [], base := 0 } } ⟨5, 8⟩).2.1 (by decide)

/-- C13, the claim at a concrete input: a waiting list with one entry of height
5 requested at time 1, and `Add(5)` at time 9.  The list changes: it then holds
two entries of height 5. -/
theorem StatesWaiting_Add_duplicate_counterexample :
    StatesWaiting.Add 9 { list := [⟨5, 1⟩] } 5 = { list := [⟨5, 1⟩, ⟨5, 9⟩] } ∧
      StatesWaiting.Add 9 { list := [⟨5, 1⟩] } 5 ≠ { list := [⟨5, 1⟩] } ∧
      ((StatesWaiting.Add 9 { list := [⟨5, 1⟩] } 5).list.filter
        (fun s => s.height = 5)).length = 2 := by
  decide

/-! ### The wire format of a directory block -/

theorem Hash.present32_some (o : Option Hash) (hp : Hash.present32 o = true) :
    ∃ h, o = some h ∧ h.bytes.length = 32 := by
  cases o with
  | none => simp [Hash.present32] at hp
  | some h =>
    refine ⟨h, rfl, ?_⟩
    simpa [Hash.present32, HASH_LENGTH] using hp

theorem putUint32_eq_bigEndianField (v : Nat) : putUint32 v = bigEndianField 4 v := by
  simp [putUint32, bigEndianField, List.range_succ, Nat.shiftRight_eq_div_pow]

theorem putUint64_eq_bigEndianField (v : Nat) : putUint64 v = bigEndianField 8 v := by
  simp [putUint64, bigEndianField, List.range_succ, Nat.shiftRight_eq_div_pow]

theorem bigEndianField_length (width n : Nat) : (bigEndianField width n).length = width := by
  simp [bigEndianField]

theorem DBEntry.entry_MarshalBinary_present (e : DBEntry)
    (hc : Hash.present32 e.ChainID = true) (hm : Hash.present32 e.MerkleRoot = true) :
    e.MarshalBinary = some (Hash.bytesOf e.ChainID ++ Hash.bytesOf e.MerkleRoot) ∧
      (Hash.bytesOf e.ChainID ++ Hash.bytesOf e.MerkleRoot).length = 64 := by
  obtain ⟨c, hc1, hc2⟩ := Hash.present32_some _ hc
  obtain ⟨m, hm1, hm2⟩ := Hash.present32_some _ hm
  simp [DBEntry.MarshalBinary, Hash.MarshalBinary, Hash.bytesOf, hc1, hm1, hc2, hm2]

/-- The entry loop of `DirectoryBlock.MarshalBinary` run to the end of the
entries appends the bytes of the entries from index `i` on, in order. -/
theorem DirectoryBlock.marshalEntries_present (entries : List DBEntry)
    (hp : ∀ e ∈ entries, Hash.present32 e.ChainID = true ∧ Hash.present32 e.MerkleRoot = true) :
    ∀ (left i : Nat) (buf : List Nat), i + left = entries.length →
      DirectoryBlock.marshalEntries entries left i buf
        = some (buf ++ ((entries.drop i).map
            (fun e => Hash.bytesOf e.ChainID ++ Hash.bytesOf e.MerkleRoot)).flatten) := by
  intro left
  induction left with
  | zero =>
    intro i buf hi
    have : entries.drop i = [] := List.drop_eq_nil_of_le (by omega)
    simp [DirectoryBlock.marshalEntries, this]
  | succ k ih =>
    intro i buf hi
    have hlt : i < entries.length := by omega
    have hget : entries[i]? = some entries[i] := List.getElem?_eq_getElem hlt
    have hmem : entries[i] ∈ entries := List.getElem_mem hlt
    obtain ⟨hc, hm⟩ := hp _ hmem
    have hdrop : entries.drop i = entries[i] :: entries.drop (i + 1) :=
      List.drop_eq_getElem_cons hlt
    rw [DirectoryBlock.marshalEntries, hget]
    simp only [(DBEntry.entry_MarshalBinary_present _ hc hm).1]
    rw [ih (i + 1) _ (by omega), hdrop]
    simp only [List.map_cons, List.flatten_cons, List.append_assoc]

theorem entries_wire_length (entries : List DBEntry)
    (hp : ∀ e ∈ entries, Hash.present32 e.ChainID = true ∧ Hash.present32 e.MerkleRoot = true) :
    ((entries.map
        (fun e => Hash.bytesOf e.ChainID ++ Hash.bytesOf e.MerkleRoot)).flatten).length
      = 64 * entries.length := by
  induction entries with
  | nil => simp
  | cons e rest ih =>
    have he := hp e (by simp)
    have hl := (DBEntry.entry_MarshalBinary_present e he.1 he.2).2
    have hr := ih (fun x hx => hp x (by simp [hx]))
    simp only [List.map_cons, List.flatten_cons, List.length_append, List.length_cons] at hl hr ⊢
    omega

theorem DBlockHeader.header_MarshalBinary_present (b : DirectoryBlock)
    (h1 : Hash.present32 b.Header.BodyMR = true)
    (h2 : Hash.present32 b.Header.PrevKeyMR = true)
    (h3 : Hash.present32 b.Header.PrevBlockHash = true) :
    b.Header.MarshalBinary = some b.headerWire ∧ b.headerWire.length = 117 := by
  obtain ⟨x, hx1, hx2⟩ := Hash.present32_some _ h1
  obtain ⟨y, hy1, hy2⟩ := Hash.present32_some _ h2
  obtain ⟨z, hz1, hz2⟩ := Hash.present32_some _ h3
  refine ⟨?_, ?_⟩
  · simp [DBlockHeader.MarshalBinary, DirectoryBlock.headerWire, directoryHeaderWire,
      Hash.MarshalBinary, Hash.bytesOf, hx1, hy1, hz1, putUint32_eq_bigEndianField,
      putUint64_eq_bigEndianField]
  · simp [DirectoryBlock.headerWire, directoryHeaderWire, Hash.bytesOf, hx1, hy1, hz1,
      hx2, hy2, hz2, bigEndianField_length]

/-- C14, as the code has it: the directory-block wire format.  For a directory
block whose header hashes and entry hashes are present 32-byte values and which
has fewer than `2^32` entries, `DirectoryBlock.MarshalBinary` yields the header
version, network_id (u32 BE), body_mr, prev_key_mr, prev_block_hash,
block_height (u32 BE), start_time (u64 BE), entry_count (u32 BE), followed by
the count of the entries (u32 BE) and, for each entry in order, chain_id and
merkle_root; the header part is what `DBlockHeader.MarshalBinary` yields and
has length `DBlockHeader.MarshalledSize() = 117`, and the whole output has
length `121 + 64 * len(DBEntries)`. -/
theorem DirectoryBlock_MarshalBinary_wire_format (b : DirectoryBlock)
    (hp : b.hashesPresent = true) (hcount : b.DBEntries.length < uint32Mod) :
    b.MarshalBinary = some (b.headerWire ++ b.bodyWire) ∧
      b.Header.MarshalBinary = some b.headerWire ∧
      b.headerWire.length = DBlockHeader.MarshalledSize ∧
      DBlockHeader.MarshalledSize = 117 ∧
      (b.headerWire ++ b.bodyWire).length = 121 + 64 * b.DBEntries.length := by
  simp only [DirectoryBlock.hashesPresent, Bool.and_eq_true, List.all_eq_true] at hp
  obtain ⟨⟨⟨h1, h2⟩, h3⟩, he⟩ := hp
  obtain ⟨hhdr, hlen⟩ := DBlockHeader.header_MarshalBinary_present b h1 h2 h3
  have hsize : DBlockHeader.MarshalledSize = 117 := by decide
  have hbody : b.bodyWire = bigEndianField 4 b.DBEntries.length ++
      (b.DBEntries.map
        (fun e => Hash.bytesOf e.ChainID ++ Hash.bytesOf e.MerkleRoot)).flatten := by
    simp [DirectoryBlock.bodyWire, directoryBodyWire, List.map_map, Function.comp_def]
  have hmod : b.DBEntries.length % uint32Mod = b.DBEntries.length := Nat.mod_eq_of_lt hcount
  have hloop := DirectoryBlock.marshalEntries_present b.DBEntries he b.DBEntries.length 0
    (b.headerWire ++ putUint32 b.DBEntries.length) (by omega)
  refine ⟨?_, hhdr, by rw [hlen, hsize], hsize, ?_⟩
  · simp only [DirectoryBlock.MarshalBinary, hhdr, hmod, Option.bind_eq_bind, Option.some_bind,
      List.nil_append]
    rw [hloop, hbody, putUint32_eq_bigEndianField]
    simp [List.append_assoc]
  · rw [List.length_append, hlen, hbody, List.length_append, bigEndianField_length,
      entries_wire_length b.DBEntries he]
    omega

theorem DirectoryBlock_MarshalBinary_wire_format_witness :
    (DirectoryBlock.MarshalBinary
      { Header := { Version := 0, NetworkID := 258,
                    BodyMR := some ⟨List.replicate 32 1⟩,
                    PrevKeyMR := some ⟨List.replicate 32 2⟩,
                    PrevBlockHash := some ⟨List.replicate 32 3⟩,
                    BlockHeight := 7, StartTime := 9, EntryCount := 1 },
        DBEntries := [{ MerkleRoot := some ⟨List.replicate 32 5⟩,
                        ChainID := some ⟨List.replicate 32 4⟩ }] }).map List.length
      = some 185 := by
  have h := DirectoryBlock_MarshalBinary_wire_format
    { Header := { Version := 0, NetworkID := 258,
                  BodyMR := some ⟨List.replicate 32 1⟩,
                  PrevKeyMR := some ⟨List.replicate 32 2⟩,
                  PrevBlockHash := some ⟨List.replicate 32 3⟩,
                  BlockHeight := 7, StartTime := 9, EntryCount := 1 },
      DBEntries := [{ MerkleRoot := some ⟨List.replicate 32 5⟩,
                      ChainID := some ⟨List.replicate 32 4⟩ }] } (by decide) (by decide)
  rw [h.1, Option.map_some', h.2.2.2.2]
  rfl

/-- When the entries of a block count to 0 in `uint32`, the block marshals to
its header followed by the count 0. -/
theorem DirectoryBlock.MarshalBinary_count_zero (b : DirectoryBlock) (hdr : List Nat)
    (h1 : b.Header.MarshalBinary = some hdr)
    (h2 : b.DBEntries.length % uint32Mod = 0) :
    b.MarshalBinary = some (hdr ++ [0, 0, 0, 0]) := by
  unfold DirectoryBlock.MarshalBinary
  rw [h1, h2]
  rfl

/-- C14, the claim at a concrete input: a directory block with present 32-byte
hashes and `2^32` entries.  `uint32(len(b.DBEntries))` is 0, so
`DirectoryBlock.MarshalBinary` writes the header, the count 0 and no entry:
121 bytes, not `121 + 64 * len(DBEntries)`. -/
theorem DirectoryBlock_MarshalBinary_count_wraps_counterexample :
    blockOfUint32ModEntries.hashesPresent = true ∧
      blockOfUint32ModEntries.MarshalBinary
        = some (blockOfUint32ModEntries.headerWire ++ [0, 0, 0, 0]) ∧
      (blockOfUint32ModEntries.headerWire ++ [0, 0, 0, 0]).length = 121 ∧
      (blockOfUint32ModEntries.headerWire ++ [0, 0, 0, 0]).length
        ≠ 121 + 64 * blockOfUint32ModEntries.DBEntries.length := by
  have hh : Hash.present32 (some { bytes := List.replicate 32 0 }) = true := by decide
  have hhdr := DBlockHeader.header_MarshalBinary_present blockOfUint32ModEntries hh hh hh
  have hlen : blockOfUint32ModEntries.DBEntries.length = uint32Mod :=
    List.length_replicate _ _
  have hpos : 0 < uint32Mod := by decide
  refine ⟨?_, ?_, ?_, ?_⟩
  · simp only [DirectoryBlock.hashesPresent, Bool.and_eq_true, List.all_eq_true]
    refine ⟨⟨⟨hh, hh⟩, hh⟩, ?_⟩
    intro e he
    have := List.eq_of_mem_replicate he
    rw [this]
    exact ⟨hh, hh⟩
  · exact DirectoryBlock.MarshalBinary_count_zero _ _ hhdr.1 (by rw [hlen, Nat.mod_self])
  · rw [List.length_append, hhdr.2]
    rfl
  · rw [List.length_append, hhdr.2, hlen]
    simp only [List.length_cons, List.length_nil]
    omega

/-! ### The Scanner -/

/-- C15, as the code has it: with `H_a + 2` in the `uint32` range, the bound
`hk` of the Scanner is `H_k` when `H_k > H_a + 2`, where it is
`max(H_a + 2, H_k)`, and `H_a` otherwise. -/
theorem scannerCeiling_known_or_ack (ha hkn : Nat) (hr : ha + 2 < uint32Mod) :
    (hkn > ha + 2 → scannerCeiling ha hkn = hkn ∧ scannerCeiling ha hkn = max (ha + 2) hkn) ∧
      (hkn ≤ ha + 2 → scannerCeiling ha hkn = ha) := by
  have hmod : (ha + 2) % uint32Mod = ha + 2 := Nat.mod_eq_of_lt hr
  refine ⟨?_, ?_⟩
  · intro h
    have : scannerCeiling ha hkn = hkn := by simp [scannerCeiling, hmod, h]
    refine ⟨this, ?_⟩
    rw [this]
    omega
  · intro h
    have hn : ¬ hkn > ha + 2 := by omega
    simp [scannerCeiling, hmod, hn]

theorem scannerCeiling_known_or_ack_witness : scannerCeiling 10 11 = 10 :=
  (scannerCeiling_known_or_ack 10 11 (by decide)).2 (by decide)

/-- C15, the claim at a concrete input: highest ack 10 and highest known block
11.  The bound `hk` is 10, while `max(H_a + 2, H_k)` is 12. -/
theorem scannerCeiling_not_max_counterexample :
    scannerCeiling 10 11 = 10 ∧ max (10 + 2) 11 = 12 ∧
      scannerCeiling 10 11 ≠ max (10 + 2) 11 := by
  decide

/-- C16. The Scanner from its base sync to the end of its two removal loops,
evaluated on the missing list 3, 4, 5, the waiting list 6, the received list 7,
base 2 and `H_s = 5`: the base becomes 5 and height 3 leaves the missing list,
but the heights 4 and 5, not above the base, stay in it. -/
theorem scannerPurge_stops_after_first_removal :
    scannerPurge 5
        { missing := { list := [⟨3⟩, ⟨4⟩, ⟨5⟩] },
          waiting := { list := [⟨6, 0⟩] },
          recieved := { list := [⟨7, ⟨7, 70⟩⟩], base := 2 } }
      = { missing := { list := [⟨4⟩, ⟨5⟩] },
          waiting := { list := [⟨6, 0⟩] },
          recieved := { list := [⟨7, ⟨7, 70⟩⟩], base := 5 } } ∧
    ¬ (∀ h ∈ (scannerPurge 5
        { missing := { list := [⟨3⟩, ⟨4⟩, ⟨5⟩] },
          waiting := { list := [⟨6, 0⟩] },
          recieved := { list := [⟨7, ⟨7, 70⟩⟩], base := 2 } }).missing.heights, h > 5) := by
  decide

theorem gapInner_never_leaves (n next : Nat) (hgap : (n + 1) % uint32Mod < next) :
    ∀ fuel, gapInner n next fuel = (List.replicate fuel ((n + 1) % uint32Mod), none) := by
  intro fuel
  induction fuel with
  | zero => simp [gapInner, hgap]
  | succ k ih => simp [gapInner, hgap, ih, List.replicate_succ]

/-- C17. The gap scan of the Scanner evaluated on the received list 5, 7, 8:
however many sends are allowed, the scan has not come to its end, and every
height it has sent is 6: the inner loop sends height 6 again and again. -/
theorem gapScan_repeats_without_end (fuel : Nat) :
    gapScan [⟨5, ⟨5, 50⟩⟩, ⟨7, ⟨7, 70⟩⟩, ⟨8, ⟨8, 80⟩⟩] fuel
      = (List.replicate fuel 6, false) := by
  have h := gapInner_never_leaves 5 7 (by decide) fuel
  have h6 : (5 + 1) % uint32Mod = 6 := by decide
  rw [h6] at h
  simp [gapScan, h]

/-- The last loop of the Scanner, started at `n` with a bound `hk` in the
`uint32` range and given enough fuel, ends and sends `n`, ..., `hk - 1`. -/
theorem tailLoop_range (hk : Nat) (hhk : hk < uint32Mod) :
    ∀ (fuel n : Nat), hk - n ≤ fuel →
      tailLoop hk fuel n = some (List.range' n (hk - n)) := by
  intro fuel
  induction fuel with
  | zero =>
    intro n hf
    have hn : ¬ n < hk := by omega
    have h0 : hk - n = 0 := by omega
    simp [tailLoop, hn, h0]
  | succ k ih =>
    intro n hf
    by_cases hn : n < hk
    · have hmod : (n + 1) % uint32Mod = n + 1 := Nat.mod_eq_of_lt (by omega)
      have hstep : hk - n = (hk - (n + 1)) + 1 := by omega
      rw [tailLoop, if_pos hn, hmod, ih (n + 1) (by omega), hstep, List.range'_succ]
    · have h0 : hk - n = 0 := by omega
      simp [tailLoop, hn, h0]

/-- C18. Tail emission of the Scanner: `HeighestRecieved()` is the larger of
the height of the last list element and the base (the base for an empty list);
with `HeighestRecieved()` below the `uint32` maximum the last loop of a cycle
ends and sends exactly the heights `HeighestRecieved()+1`, ..., `hk-1`, in
ascending order and once each (none when `HeighestRecieved()+1 ≥ hk`).  With
all lists empty, base 0, `H_s = 0`, `H_a = 0` and `H_k = 5`, one Scanner cycle
sends 1, 2, 3, 4 and the Mailbox handling them leaves the missing list 1, 2, 3, 4. -/
theorem Scanner_tail_emission :
    (∀ (l : StatesReceived) (hk : Nat), l.HeighestRecieved + 1 < uint32Mod →
      hk < uint32Mod →
      (l.HeighestRecieved =
          match l.list.getLast? with
          | some s => max s.height l.Base
          | none => l.Base) ∧
        ∀ fuel, hk - (l.HeighestRecieved + 1) ≤ fuel →
          scannerTail fuel l hk
            = some (List.range' (l.HeighestRecieved + 1) (hk - (l.HeighestRecieved + 1)))) ∧
    ((∀ fuel, 4 ≤ fuel →
        ScannerCycle fuel 0 0 5 Engine.empty = some (Engine.empty, [1, 2, 3, 4])) ∧
      (MailboxRun Engine.empty
        ([1, 2, 3, 4].map (fun h => (0, MailboxEvent.missingNotify ⟨h⟩)))).missing.heights
        = [1, 2, 3, 4]) := by
  refine ⟨?_, ?_, by decide⟩
  · intro l hk hhr hhk
    refine ⟨?_, ?_⟩
    · unfold StatesReceived.HeighestRecieved
      cases l.list.getLast? with
      | none =>
        simp only
        split_ifs with h
        · rfl
        · omega
      | some s =>
        simp only
        split_ifs with h
        · omega
        · omega
    · intro fuel hf
      have hmod : (l.HeighestRecieved + 1) % uint32Mod = l.HeighestRecieved + 1 :=
        Nat.mod_eq_of_lt hhr
      rw [scannerTail, hmod]
      exact tailLoop_range hk hhk fuel _ hf
  · intro fuel hf
    have hpurge : scannerPurge 0 Engine.empty = Engine.empty := by decide
    have hceil : scannerCeiling 0 5 = 5 := by decide
    have hhr : (Engine.empty.recieved.HeighestRecieved + 1) % uint32Mod = 1 := by decide
    have htail : scannerTail fuel Engine.empty.recieved 5 = some [1, 2, 3, 4] := by
      rw [scannerTail, hhr, tailLoop_range 5 (by decide) fuel 1 (by omega)]
      rfl
    have hgap : gapScan Engine.empty.recieved.list fuel = ([], true) := by
      simp [Engine.empty, NewStatesReceived, gapScan]
    simp [ScannerCycle, hpurge, hceil, hgap, htail]

theorem Scanner_tail_emission_witness :
    scannerTail 10 { list := [⟨3, ⟨3, 30⟩⟩, ⟨6, ⟨6, 60⟩⟩], base := 2 } 9
      = some (List.range'
          ((StatesReceived.mk [⟨3, ⟨3, 30⟩⟩, ⟨6, ⟨6, 60⟩⟩] 2).HeighestRecieved + 1)
          (9 - ((StatesReceived.mk [⟨3, ⟨3, 30⟩⟩, ⟨6, ⟨6, 60⟩⟩] 2).HeighestRecieved + 1))) :=
  (Scanner_tail_emission.1 { list := [⟨3, ⟨3, 30⟩⟩, ⟨6, ⟨6, 60⟩⟩], base := 2 } 9
    (by decide) (by decide)).2 10 (by decide)

/-! ### The Timeout sweeper -/

/-- C19. One pass of the Timeout sweeper evaluated at clock reading 100 with
timeout 10 on the waiting list of heights 1, 2, 3 requested at times 0, 95 and
0: the entries of heights 1 and 3 have timed out, but the pass removes only the
entry of height 1 and sends only height 1; the entry of height 3 stays. -/
theorem TimeoutSweep_stops_after_first_removal :
    TimeoutSweep 100 10
        { missing := { list := [] },
          waiting := { list := [⟨1, 0⟩, ⟨2, 95⟩, ⟨3, 0⟩] },
          recieved := { list := [], base := 0 } }
      = ({ missing := { list := [] },
           waiting := { list := [⟨2, 95⟩, ⟨3, 0⟩] },
           recieved := { list := [], base := 0 } }, [⟨1⟩]) ∧
    WaitingState.RequestAge 100 ⟨3, 0⟩ > 10 := by
  decide

/-! ### The Dispatcher and the cap on outstanding requests -/

theorem StatesWaiting.delScan_length_le (h : Nat) (l : List WaitingState) :
    (StatesWaiting.delScan h l).length ≤ l.length := by
  induction l with
  | nil => simp [StatesWaiting.delScan]
  | cons s next ih =>
    unfold StatesWaiting.delScan
    split_ifs with h1
    · simp
    · simp only [List.length_cons]
      omega

theorem purgeWaitingScan_length_le (base : Nat) (rest : List WaitingState) :
    ∀ visited, (purgeWaitingScan base visited rest).length ≤ visited.length + rest.length := by
  induction rest with
  | nil =>
    intro visited
    simp [purgeWaitingScan]
  | cons s next ih =>
    intro visited
    unfold purgeWaitingScan
    split_ifs with h1 h2
    · have h3 := ih (StatesWaiting.delScan s.height visited ++ [s])
      have h4 := StatesWaiting.delScan_length_le s.height visited
      simp only [List.length_append, List.length_cons, List.length_nil] at h3 ⊢
      omega
    · have h3 := StatesWaiting.delScan_length_le s.height (visited ++ s :: next)
      simp only [StatesWaiting.Del, List.length_append, List.length_cons] at h3 ⊢
      omega
    · have h3 := ih (visited ++ [s])
      simp only [List.length_append, List.length_cons, List.length_nil] at h3 ⊢
      omega

theorem sweepScan_length_le (now : Nat) (requestTimeout : Int) (rest : List WaitingState) :
    ∀ visited,
      (sweepScan now requestTimeout visited rest).1.length ≤ visited.length + rest.length := by
  induction rest with
  | nil =>
    intro visited
    simp [sweepScan]
  | cons s next ih =>
    intro visited
    unfold sweepScan
    split_ifs with h1 h2
    · have h3 := ih (StatesWaiting.delScan s.height visited ++ [s])
      have h4 := StatesWaiting.delScan_length_le s.height visited
      simp only [List.length_append, List.length_cons, List.length_nil] at h3 ⊢
      omega
    · have h3 := StatesWaiting.delScan_length_le s.height (visited ++ s :: next)
      simp only [StatesWaiting.Del, List.length_append, List.length_cons] at h3 ⊢
      omega
    · have h3 := ih (visited ++ [s])
      simp only [List.length_append, List.length_cons, List.length_nil] at h3 ⊢
      omega

/-- A Dispatcher iteration leaves the waiting list as it is, and sends on
`waiting.Notify` only when the waiting list is shorter than the limit. -/
theorem Dispatcher_waiting (now : Nat) (requestLimit : Int) (msgOk : Bool) (st : Engine) :
    (Dispatcher now requestLimit msgOk st).1.waiting = st.waiting ∧
      ((Dispatcher now requestLimit msgOk st).2 ≠ none →
        (st.waiting.Len : Int) < requestLimit) := by
  unfold Dispatcher
  by_cases h1 : (st.waiting.Len : Int) < requestLimit
  · rw [if_pos h1]
    rcases st.missing.GetNext with ⟨_ | s, m1⟩
    · simp
    · by_cases h2 : st.waiting.Has s.height = true
      · simp [h2]
      · cases msgOk <;> simp [h2, h1]
  · rw [if_neg h1]
    simp

/-- One step of a run around the Dispatcher keeps the waiting list within the
limit. -/
theorem DispatchStep_keeps_limit (requestLimit : Int) (st : Engine) (step : DispatchStep)
    (h0 : (st.waiting.Len : Int) ≤ requestLimit) :
    ((DispatchStep.apply requestLimit st step).waiting.Len : Int) ≤ requestLimit := by
  cases step with
  | dispatch now msgOk nowMailbox =>
    obtain ⟨hw, hs⟩ := Dispatcher_waiting now requestLimit msgOk st
    simp only [DispatchStep.apply]
    rcases hd : Dispatcher now requestLimit msgOk st with ⟨st1, _ | w⟩
    · rw [hd] at hw
      simp only at hw ⊢
      rw [hw]
      exact h0
    · rw [hd] at hw hs
      simp only at hw hs ⊢
      have hlt := hs (by simp)
      simp only [Mailbox]
      split_ifs with h1
      · simp only [StatesWaiting.Len, StatesWaiting.Add, hw, List.length_append,
          List.length_cons, List.length_nil] at hlt ⊢
        push_cast
        omega
      · rw [hw]
        exact h0
  | missingNotify now s =>
    simp only [DispatchStep.apply, Mailbox]
    split_ifs <;> exact h0
  | recievedNotify now m =>
    simp only [DispatchStep.apply, Mailbox, StatesWaiting.Len, StatesWaiting.Del] at h0 ⊢
    have := StatesWaiting.delScan_length_le (NewReceivedState m).height st.waiting.list
    omega
  | sweep now requestTimeout =>
    simp only [DispatchStep.apply, TimeoutSweep, StatesWaiting.Len] at h0 ⊢
    have := sweepScan_length_le now requestTimeout st.waiting.list []
    simp only [List.length_nil] at this
    omega
  | scanner hs =>
    simp only [DispatchStep.apply, scannerPurge, StatesWaiting.Len] at h0 ⊢
    have := purgeWaitingScan_length_le (scannerBaseSync hs st.recieved).Base st.waiting.list []
    simp only [List.length_nil] at this
    omega
  | getNext =>
    simp only [DispatchStep.apply]
    exact h0

theorem dispatchRun_keeps_limit (requestLimit : Int) (steps : List DispatchStep) :
    ∀ (st : Engine), (st.waiting.Len : Int) ≤ requestLimit →
      ((dispatchRun requestLimit st steps).waiting.Len : Int) ≤ requestLimit := by
  induction steps with
  | nil =>
    intro st h0
    exact h0
  | cons step rest ih =>
    intro st h0
    exact ih _ (DispatchStep_keeps_limit requestLimit st step h0)

/-- C20. Backpressure: a Dispatcher iteration pops from the missing list and
sends only when `StatesWaiting.Len() < requestLimit`; and in every sequential
run in which each Dispatcher iteration is followed at once by the Mailbox
handling what it sent on `waiting.Notify`, all other steps adding nothing to
the waiting list, from a waiting list within the limit the length of the
waiting list is within the limit after every number of steps. -/
theorem Dispatcher_backpressure (requestLimit : Int) (st : Engine)
    (h0 : (st.waiting.Len : Int) ≤ requestLimit) :
    (∀ now msgOk, ¬ (st.waiting.Len : Int) < requestLimit →
        Dispatcher now requestLimit msgOk st = (st, none)) ∧
      ∀ (steps : List DispatchStep) (k : Nat),
        ((dispatchRun requestLimit st (steps.take k)).waiting.Len : Int) ≤ requestLimit := by
  refine ⟨?_, ?_⟩
  · intro now msgOk h1
    simp [Dispatcher, h1]
  · intro steps k
    exact dispatchRun_keeps_limit requestLimit (steps.take k) st h0

theorem Dispatcher_backpressure_witness :
    ((dispatchRun 2
        { missing := { list := (List.range 100).map (fun i => ⟨i + 1⟩) },
          waiting := { list := [] },
          recieved := { list := [], base := 0 } }
        ((List.replicate 100 (DispatchStep.dispatch 0 true 0)).take 57)).waiting.Len : Int)
      ≤ 2 :=
  (Dispatcher_backpressure 2
    { missing := { list := (List.range 100).map (fun i => ⟨i + 1⟩) },
      waiting := { list := [] },
      recieved := { list := [], base := 0 } } (by decide)).2
    (List.replicate 100 (DispatchStep.dispatch 0 true 0)) 57

/-! ### The round trip of a directory block -/

theorem sliceFrom_append_left (a rest : List Nat) (n : Nat) (h : a.length = n) :
    sliceFrom (a ++ rest) n = some rest := by
  subst h
  simp [sliceFrom]

theorem sliceTo_append_left (a rest : List Nat) (n : Nat) (h : a.length = n) :
    sliceTo (a ++ rest) n = some a := by
  subst h
  simp [sliceTo]

theorem getUint32_putUint32 (v : Nat) (rest : List Nat) :
    (sliceTo (putUint32 v ++ rest) 4).bind getUint32 = some (v % 2 ^ 32) := by
  rw [sliceTo_append_left (putUint32 v) rest 4 rfl]
  simp only [Option.some_bind, putUint32, getUint32, Nat.shiftRight_eq_div_pow,
    Option.some.injEq]
  omega

theorem getUint64_putUint64 (v : Nat) (rest : List Nat) :
    (sliceTo (putUint64 v ++ rest) 8).bind getUint64 = some (v % 2 ^ 64) := by
  rw [sliceTo_append_left (putUint64 v) rest 8 rfl]
  simp only [Option.some_bind, putUint64, getUint64, Nat.shiftRight_eq_div_pow,
    Option.some.injEq]
  omega

theorem Hash.UnmarshalBinary_bytes (h : Hash) (hl : h.bytes.length = 32) (rest : List Nat) :
    Hash.UnmarshalBinary (h.bytes ++ rest) = h := by
  have h1 : (h.bytes ++ rest).take 32 = h.bytes := by
    rw [← hl]; exact List.take_left' rfl
  have h2 : 32 - (h.bytes ++ rest).length = 0 := by
    rw [List.length_append]; omega
  cases h with
  | mk bytes =>
    simp only [Hash.UnmarshalBinary, HASH_LENGTH] at *
    rw [h1, h2]
    simp

/-- `DBlockHeader.UnmarshalBinary` on the bytes `DBlockHeader.MarshalBinary`
writes, followed by anything, for fields of their Go types. -/
theorem DBlockHeader.header_UnmarshalBinary_marshalled (v nid bh st ec : Nat) (x y z : Hash)
    (rest : List Nat) (hx : x.bytes.length = 32) (hy : y.bytes.length = 32)
    (hz : z.bytes.length = 32) (hnid : nid < 2 ^ 32) (hbh : bh < 2 ^ 32)
    (hst : st < 2 ^ 64) (hec : ec < 2 ^ 32) :
    DBlockHeader.UnmarshalBinary
        (v :: (putUint32 nid ++ (x.bytes ++ (y.bytes ++ (z.bytes ++
          (putUint32 bh ++ (putUint64 st ++ (putUint32 ec ++ rest))))))))
      = some { Version := v, NetworkID := nid, BodyMR := some x, PrevKeyMR := some y,
               PrevBlockHash := some z, BlockHeight := bh, StartTime := st,
               EntryCount := ec } := by
  have s1 : ∀ t : List Nat, sliceFrom (v :: t) 1 = some t := fun t => by simp [sliceFrom]
  have s4 : ∀ (n : Nat) (t : List Nat), sliceFrom (putUint32 n ++ t) 4 = some t :=
    fun n t => sliceFrom_append_left (putUint32 n) t 4 rfl
  have s8 : ∀ (n : Nat) (t : List Nat), sliceFrom (putUint64 n ++ t) 8 = some t :=
    fun n t => sliceFrom_append_left (putUint64 n) t 8 rfl
  have sh : ∀ (h : Hash) (t : List Nat), h.bytes.length = 32 →
      sliceFrom (h.bytes ++ t) HASH_LENGTH = some t :=
    fun h t hl => sliceFrom_append_left h.bytes t HASH_LENGTH hl
  simp only [DBlockHeader.UnmarshalBinary, List.getElem?_cons_zero, Option.bind_eq_bind,
    Option.some_bind, s1, s4, s8, sh x _ hx, sh y _ hy, sh z _ hz, getUint32_putUint32,
    getUint64_putUint64, Hash.UnmarshalBinary_bytes x hx, Hash.UnmarshalBinary_bytes y hy,
    Hash.UnmarshalBinary_bytes z hz, Nat.mod_eq_of_lt hnid, Nat.mod_eq_of_lt hbh,
    Nat.mod_eq_of_lt hst, Nat.mod_eq_of_lt hec]
  rfl

theorem DBEntry.entry_UnmarshalBinary_marshalled (c m : Hash) (rest : List Nat)
    (hc : c.bytes.length = 32) (hm : m.bytes.length = 32) :
    DBEntry.UnmarshalBinary (c.bytes ++ (m.bytes ++ rest))
        = some { MerkleRoot := some m, ChainID := some c } ∧
      sliceFrom (c.bytes ++ (m.bytes ++ rest)) (HASH_LENGTH * 2) = some rest := by
  have h1 : sliceTo (c.bytes ++ (m.bytes ++ rest)) HASH_LENGTH = some c.bytes :=
    sliceTo_append_left _ _ _ hc
  have h2 : sliceFrom (c.bytes ++ (m.bytes ++ rest)) HASH_LENGTH = some (m.bytes ++ rest) :=
    sliceFrom_append_left _ _ _ hc
  have h3 : Hash.UnmarshalBinary c.bytes = c := by
    have := Hash.UnmarshalBinary_bytes c hc []
    simpa using this
  refine ⟨?_, ?_⟩
  · simp only [DBEntry.UnmarshalBinary, h1, h2, h3, Hash.UnmarshalBinary_bytes m hm,
      Option.bind_eq_bind, Option.some_bind]
    rfl
  · rw [← List.append_assoc]
    exact sliceFrom_append_left _ _ _ (by simp [hc, hm, HASH_LENGTH])

/-- The entry loop of `DirectoryBlock.UnmarshalBinary` on the bytes of entries
with present 32-byte hashes reads the entries back, in order. -/
theorem DirectoryBlock.unmarshalEntries_marshalled (entries : List DBEntry)
    (hp : ∀ e ∈ entries, Hash.present32 e.ChainID = true ∧ Hash.present32 e.MerkleRoot = true) :
    ∀ filled : List DBEntry,
      DirectoryBlock.unmarshalEntries entries.length
          ((entries.map
            (fun e => Hash.bytesOf e.ChainID ++ Hash.bytesOf e.MerkleRoot)).flatten) filled
        = some (filled ++ entries) := by
  induction entries with
  | nil =>
    intro filled
    simp [DirectoryBlock.unmarshalEntries]
  | cons e rest ih =>
    intro filled
    obtain ⟨hc, hm⟩ := hp e (by simp)
    obtain ⟨c, hc1, hc2⟩ := Hash.present32_some _ hc
    obtain ⟨m, hm1, hm2⟩ := Hash.present32_some _ hm
    have he : e = { MerkleRoot := some m, ChainID := some c } := by
      cases e
      simp only at hc1 hm1
      simp [hc1, hm1]
    obtain ⟨h1, h2⟩ := DBEntry.entry_UnmarshalBinary_marshalled c m
      ((rest.map (fun e => Hash.bytesOf e.ChainID ++ Hash.bytesOf e.MerkleRoot)).flatten)
      hc2 hm2
    have hbc : Hash.bytesOf e.ChainID = c.bytes := by rw [hc1]; rfl
    have hbm : Hash.bytesOf e.MerkleRoot = m.bytes := by rw [hm1]; rfl
    simp only [List.length_cons, List.map_cons, List.flatten_cons, hbc, hbm,
      List.append_assoc, DirectoryBlock.unmarshalEntries, h1, h2]
    rw [ih (fun x hx => hp x (by simp [hx])), he]
    simp

/-- The bytes `DirectoryBlock.MarshalBinary` yields for a block with present
32-byte hashes and fewer than `2^32` entries, field after field. -/
theorem DirectoryBlock.MarshalBinary_fields (b : DirectoryBlock) (x y z : Hash)
    (h1 : b.Header.BodyMR = some x) (h2 : b.Header.PrevKeyMR = some y)
    (h3 : b.Header.PrevBlockHash = some z)
    (he : ∀ e ∈ b.DBEntries,
      Hash.present32 e.ChainID = true ∧ Hash.present32 e.MerkleRoot = true)
    (hcount : b.DBEntries.length < uint32Mod) :
    b.MarshalBinary
      = some ((b.Header.Version :: (putUint32 b.Header.NetworkID ++ (x.bytes ++ (y.bytes ++
          (z.bytes ++ (putUint32 b.Header.BlockHeight ++ (putUint64 b.Header.StartTime ++
            putUint32 b.Header.EntryCount))))))) ++
          (putUint32 b.DBEntries.length ++
            (b.DBEntries.map
              (fun e => Hash.bytesOf e.ChainID ++ Hash.bytesOf e.MerkleRoot)).flatten)) := by
  have hhdr : b.Header.MarshalBinary
      = some (b.Header.Version :: (putUint32 b.Header.NetworkID ++ (x.bytes ++ (y.bytes ++
          (z.bytes ++ (putUint32 b.Header.BlockHeight ++ (putUint64 b.Header.StartTime ++
            putUint32 b.Header.EntryCount))))))) := by
    simp [DBlockHeader.MarshalBinary, Hash.MarshalBinary, h1, h2, h3]
  have hmod : b.DBEntries.length % uint32Mod = b.DBEntries.length := Nat.mod_eq_of_lt hcount
  simp only [DirectoryBlock.MarshalBinary, hhdr, hmod, Option.bind_eq_bind, Option.some_bind,
    List.nil_append]
  rw [DirectoryBlock.marshalEntries_present b.DBEntries he b.DBEntries.length 0 _ (by omega)]
  simp [List.append_assoc]

/-- Unmarshalling the bytes of a marshalled block with present 32-byte hashes,
header fields of their Go types and fewer than `2^32` entries gives the block. -/
theorem DirectoryBlock.UnmarshalBinary_of_MarshalBinary (b : DirectoryBlock)
    (hp : b.hashesPresent = true) (hty : b.Header.wellTyped = true)
    (hcount : b.DBEntries.length < uint32Mod) :
    ∃ data, b.MarshalBinary = some data ∧ DirectoryBlock.UnmarshalBinary data = some b := by
  simp only [DirectoryBlock.hashesPresent, Bool.and_eq_true, List.all_eq_true] at hp
  obtain ⟨⟨⟨h1, h2⟩, h3⟩, he⟩ := hp
  simp only [DBlockHeader.wellTyped, Bool.and_eq_true, decide_eq_true_eq] at hty
  obtain ⟨⟨⟨⟨_, hnid⟩, hbh⟩, hst⟩, hec⟩ := hty
  obtain ⟨x, hx1, hx2⟩ := Hash.present32_some _ h1
  obtain ⟨y, hy1, hy2⟩ := Hash.present32_some _ h2
  obtain ⟨z, hz1, hz2⟩ := Hash.present32_some _ h3
  refine ⟨_, DirectoryBlock.MarshalBinary_fields b x y z hx1 hy1 hz1 he hcount, ?_⟩
  have hlen : (b.Header.Version :: (putUint32 b.Header.NetworkID ++ (x.bytes ++ (y.bytes ++
      (z.bytes ++ (putUint32 b.Header.BlockHeight ++ (putUint64 b.Header.StartTime ++
        putUint32 b.Header.EntryCount))))))).length = DBlockHeader.MarshalledSize := by
    simp [putUint32, putUint64, hx2, hy2, hz2, DBlockHeader.MarshalledSize, HASH_LENGTH]
  have hheader := DBlockHeader.header_UnmarshalBinary_marshalled b.Header.Version b.Header.NetworkID
    b.Header.BlockHeight b.Header.StartTime b.Header.EntryCount x y z
    (putUint32 b.DBEntries.length ++
      (b.DBEntries.map (fun e => Hash.bytesOf e.ChainID ++ Hash.bytesOf e.MerkleRoot)).flatten)
    hx2 hy2 hz2 hnid hbh hst hec
  have hmod : b.DBEntries.length % 2 ^ 32 = b.DBEntries.length := Nat.mod_eq_of_lt hcount
  unfold DirectoryBlock.UnmarshalBinary
  rw [sliceFrom_append_left _ _ _ hlen]
  simp only [List.cons_append, List.append_assoc] at hheader ⊢
  rw [hheader]
  simp only [Option.bind_eq_bind, Option.some_bind, getUint32_putUint32, hmod,
    sliceFrom_append_left (putUint32 b.DBEntries.length) _ 4 rfl,
    DirectoryBlock.unmarshalEntries_marshalled b.DBEntries he [], List.nil_append]
  obtain ⟨hdr, entries⟩ := b
  obtain ⟨v, nid, bmr, pk, pb, bh, st, ec⟩ := hdr
  simp only at hx1 hy1 hz1
  simp [hx1, hy1, hz1]

/-- C21, as the code has it: the round trip of a directory block.  For a
directory block whose header hashes and entry hashes are present 32-byte
values, whose header fields hold values of their Go types and which has fewer
than `2^32` entries, `DirectoryBlock.UnmarshalBinary` applied to the bytes of
`MarshalBinary` does not fail and yields the block again: the same header,
field by field, and the same entries in the same order. -/
theorem DirectoryBlock_round_trip (b : DirectoryBlock)
    (hp : b.hashesPresent = true) (hty : b.Header.wellTyped = true)
    (hcount : b.DBEntries.length < uint32Mod) :
    ∃ data, b.MarshalBinary = some data ∧ DirectoryBlock.UnmarshalBinary data = some b :=
  DirectoryBlock.UnmarshalBinary_of_MarshalBinary b hp hty hcount

theorem DirectoryBlock_round_trip_witness :
    ∃ data,
      DirectoryBlock.MarshalBinary
        { Header := { Version := 0, NetworkID := 258,
                      BodyMR := some ⟨List.replicate 32 1⟩,
                      PrevKeyMR := some ⟨List.replicate 32 2⟩,
                      PrevBlockHash := some ⟨List.replicate 32 3⟩,
                      BlockHeight := 7, StartTime := 9, EntryCount := 1 },
          DBEntries := [{ MerkleRoot := some ⟨List.replicate 32 5⟩,
                          ChainID := some ⟨List.replicate 32 4⟩ }] } = some data ∧
      DirectoryBlock.UnmarshalBinary data
        = some
            { Header := { Version := 0, NetworkID := 258,
                          BodyMR := some ⟨List.replicate 32 1⟩,
                          PrevKeyMR := some ⟨List.replicate 32 2⟩,
                          PrevBlockHash := some ⟨List.replicate 32 3⟩,
                          BlockHeight := 7, StartTime := 9, EntryCount := 1 },
              DBEntries := [{ MerkleRoot := some ⟨List.replicate 32 5⟩,
                              ChainID := some ⟨List.replicate 32 4⟩ }] } :=
  DirectoryBlock_round_trip
    { Header := { Version := 0, NetworkID := 258,
                  BodyMR := some ⟨List.replicate 32 1⟩,
                  PrevKeyMR := some ⟨List.replicate 32 2⟩,
                  PrevBlockHash := some ⟨List.replicate 32 3⟩,
                  BlockHeight := 7, StartTime := 9, EntryCount := 1 },
      DBEntries := [{ MerkleRoot := some ⟨List.replicate 32 5⟩,
                      ChainID := some ⟨List.replicate 32 4⟩ }] }
    (by decide) (by decide) (by decide)

theorem blockOfUint32ModEntries_hashesPresent :
    blockOfUint32ModEntries.hashesPresent = true := by
  have hh : Hash.present32 (some { bytes := List.replicate 32 0 }) = true := by decide
  simp only [DirectoryBlock.hashesPresent, Bool.and_eq_true, List.all_eq_true]
  refine ⟨⟨⟨hh, hh⟩, hh⟩, ?_⟩
  intro e he
  rw [List.eq_of_mem_replicate he]
  exact ⟨hh, hh⟩

/-- C21, the claim at a concrete input: a directory block with present 32-byte
hashes and `2^32` entries.  Its bytes carry the count 0 and no entry, and
`DirectoryBlock.UnmarshalBinary` reads back a block with the same header and no
entry at all. -/
theorem DirectoryBlock_round_trip_count_wraps_counterexample :
    blockOfUint32ModEntries.hashesPresent = true ∧
      blockOfUint32ModEntries.Header.wellTyped = true ∧
      blockOfUint32ModEntries.MarshalBinary.bind DirectoryBlock.UnmarshalBinary
        = some { Header := blockOfUint32ModEntries.Header, DBEntries := [] } ∧
      ([] : List DBEntry).length ≠ blockOfUint32ModEntries.DBEntries.length := by
  have hh : Hash.present32 (some { bytes := List.replicate 32 0 }) = true := by decide
  have hhdr := DBlockHeader.header_MarshalBinary_present blockOfUint32ModEntries hh hh hh
  have hlen : blockOfUint32ModEntries.DBEntries.length = uint32Mod :=
    List.length_replicate _ _
  have hmar := DirectoryBlock.MarshalBinary_count_zero blockOfUint32ModEntries _ hhdr.1
    (by rw [hlen, Nat.mod_self])
  have hmar0 := DirectoryBlock.MarshalBinary_count_zero
    { Header := blockOfUint32ModEntries.Header, DBEntries := [] } _ hhdr.1 rfl
  obtain ⟨data, hd1, hd2⟩ := DirectoryBlock.UnmarshalBinary_of_MarshalBinary
    { Header := blockOfUint32ModEntries.Header, DBEntries := [] }
    (by decide) (by decide) (by decide)
  have hpos : 0 < uint32Mod := by decide
  refine ⟨blockOfUint32ModEntries_hashesPresent, by decide, ?_, ?_⟩
  · rw [hmar, Option.some_bind]
    rw [hmar0] at hd1
    rw [Option.some.inj hd1]
    exact hd2
  · rw [hlen]
    simp only [List.length_nil]
    omega

/-! ### `DChain.AddDBlockToDChain` -/

/-- C22. `DChain.AddDBlockToDChain` evaluated on the chain that `NewDChain`
sets up (`Blocks` of length 0 and capacity 0) and any block of height 0: the
new capacity is `0*2 = 0`, so the slice expression `c.Blocks[0 : 0+1]` is out
of range and the call fails. -/
theorem AddDBlockToDChain_fresh_chain_height_zero_fails (hdr : DBlockHeader)
    (entries : List DBEntry) :
    NewDChain.AddDBlockToDChain
      { Header := { hdr with BlockHeight := 0 }, DBEntries := entries } = none := by
  simp [DChain.AddDBlockToDChain, NewDChain, BlockSlice.cap, BlockSlice.make,
    BlockSlice.copy, BlockSlice.reslice, BlockSlice.elems, uint32Mod]

/-- Away from the empty chain with a block of height 0, and with the doubled
height in the `uint32` range, `DChain.AddDBlockToDChain` stores the block:
the call does not fail, the length is above the height afterwards, the block
is at the index of its height and the blocks at other indices are as before. -/
theorem AddDBlockToDChain_stores (c : DChain) (b : DirectoryBlock)
    (hwf : c.Blocks.len ≤ c.Blocks.cap) (hcap : c.Blocks.cap < uint32Mod)
    (hn : b.Header.BlockHeight * 2 < uint32Mod)
    (h0 : 0 < b.Header.BlockHeight ∨ 0 < c.Blocks.cap) :
    ∃ c1, c.AddDBlockToDChain b = some c1 ∧
      b.Header.BlockHeight < c1.Blocks.len ∧
      c1.Blocks.elems[b.Header.BlockHeight]? = some (some b) ∧
      ∀ i, i < c.Blocks.len → i ≠ b.Header.BlockHeight →
        c1.Blocks.elems[i]? = c.Blocks.elems[i]? := by
  obtain ⟨⟨arr, len⟩⟩ := c
  simp only [BlockSlice.cap] at hwf hcap h0
  have hu : uint32Mod = 4294967296 := by decide
  have hm1 : arr.length % uint32Mod = arr.length := Nat.mod_eq_of_lt hcap
  have hm2 : len % uint32Mod = len := Nat.mod_eq_of_lt (by omega)
  have hm3 : (b.Header.BlockHeight * 2) % uint32Mod = b.Header.BlockHeight * 2 :=
    Nat.mod_eq_of_lt hn
  have hm4 : (b.Header.BlockHeight + 1) % uint32Mod = b.Header.BlockHeight + 1 :=
    Nat.mod_eq_of_lt (by omega)
  by_cases hc : b.Header.BlockHeight ≥ arr.length
  · -- the capacity is increased, then the length
    have hlen : len ≤ b.Header.BlockHeight * 2 := by omega
    have hge : b.Header.BlockHeight ≥ len := by omega
    have hre : b.Header.BlockHeight + 1 ≤
        (List.take len (List.take len arr) ++
          List.drop (min len len) (List.replicate (b.Header.BlockHeight * 2) none)).length := by
      simp only [List.length_append, List.length_take, List.length_drop,
        List.length_replicate]
      omega
    have hres : DChain.AddDBlockToDChain { Blocks := { array := arr, len := len } } b
        = some { Blocks :=
            { array := (List.take len (List.take len arr) ++
                List.drop (min len len)
                  (List.replicate (b.Header.BlockHeight * 2) none)).set
                  b.Header.BlockHeight (some b),
              len := b.Header.BlockHeight + 1 } } := by
      simp only [DChain.AddDBlockToDChain, BlockSlice.cap, hm1, hm2, hm3, hm4, hc, hge,
        if_true, BlockSlice.make, hlen, BlockSlice.copy, BlockSlice.elems,
        BlockSlice.reslice, hre, BlockSlice.setIndex, Nat.lt_succ_self,
        Option.bind_eq_bind, Option.some_bind, ge_iff_le]
      rfl
    refine ⟨_, hres, ?_, ?_, ?_⟩
    · exact Nat.lt_succ_self _
    · simp only [BlockSlice.elems]
      rw [List.getElem?_take_of_lt (Nat.lt_succ_self _)]
      rw [List.getElem?_set_self (by omega)]
    · intro i hi hne
      have hi : i < len := hi
      simp only [BlockSlice.elems]
      rw [List.getElem?_take_of_lt (by omega), List.getElem?_take_of_lt hi,
        List.getElem?_set_ne (fun e => hne e.symm)]
      rw [List.getElem?_append_left (by simp; omega)]
      simp [List.getElem?_take_of_lt hi]
  · by_cases hl : b.Header.BlockHeight ≥ len
    · -- the length is increased
      have hre : b.Header.BlockHeight + 1 ≤ arr.length := by omega
      have hres : DChain.AddDBlockToDChain { Blocks := { array := arr, len := len } } b
          = some { Blocks := { array := arr.set b.Header.BlockHeight (some b),
                               len := b.Header.BlockHeight + 1 } } := by
        simp only [DChain.AddDBlockToDChain, BlockSlice.cap, hm1, hm2, hm4, hc, hl,
          if_true, if_false, BlockSlice.reslice, hre, BlockSlice.setIndex,
          Nat.lt_succ_self, Option.bind_eq_bind, Option.some_bind, ge_iff_le]
        rfl
      refine ⟨_, hres, ?_, ?_, ?_⟩
      · exact Nat.lt_succ_self _
      · simp only [BlockSlice.elems]
        rw [List.getElem?_take_of_lt (Nat.lt_succ_self _)]
        rw [List.getElem?_set_self (by omega)]
      · intro i hi hne
        have hi : i < len := hi
        simp only [BlockSlice.elems]
        rw [List.getElem?_take_of_lt (by omega), List.getElem?_take_of_lt hi,
          List.getElem?_set_ne (fun e => hne e.symm)]
    · -- the block replaces the one at its height
      have hlt : b.Header.BlockHeight < len := by omega
      have hres : DChain.AddDBlockToDChain { Blocks := { array := arr, len := len } } b
          = some { Blocks := { array := arr.set b.Header.BlockHeight (some b),
                               len := len } } := by
        simp only [DChain.AddDBlockToDChain, BlockSlice.cap, hm1, hm2, hc, hl,
          if_false, BlockSlice.setIndex, hlt, if_true,
          Option.bind_eq_bind, Option.some_bind, ge_iff_le]
        rfl
      refine ⟨_, hres, ?_, ?_, ?_⟩
      · exact hlt
      · simp only [BlockSlice.elems]
        rw [List.getElem?_take_of_lt hlt]
        rw [List.getElem?_set_self (by omega)]
      · intro i hi hne
        have hi : i < len := hi
        simp only [BlockSlice.elems]
        rw [List.getElem?_take_of_lt hi, List.getElem?_take_of_lt hi,
          List.getElem?_set_ne (fun e => hne e.symm)]

/-! ### The round trip of a directory block info -/

/-- C23. `DirBlockInfo.UnmarshalBinary` evaluated on the bytes of
`MarshalBinary` for the record with `DBHash` 32 bytes of 1, `BTCTxHash` 32
bytes of 2, `BTCTxOffset` 7, `BTCBlockHeight` 9, `DBMerkleRoot` 32 bytes of 3
and `BTCConfirmed` false: the record read back has the bytes of `DBHash` as its
`BTCTxHash`, 33686018 as its `BTCTxOffset` and its `BTCBlockHeight`, bytes of
three fields as its `DBMerkleRoot`, and `BTCConfirmed` true. -/
theorem DirBlockInfo_round_trip_fails :
    (DirBlockInfo.MarshalBinary
        { DBHash := some ⟨List.replicate 32 1⟩, BTCTxHash := some ⟨List.replicate 32 2⟩,
          BTCTxOffset := 7, BTCBlockHeight := 9,
          DBMerkleRoot := some ⟨List.replicate 32 3⟩, BTCConfirmed := false }).bind
        DirBlockInfo.UnmarshalBinary
      = some
          { DBHash := some ⟨List.replicate 32 1⟩, BTCTxHash := some ⟨List.replicate 32 1⟩,
            BTCTxOffset := 33686018, BTCBlockHeight := 33686018,
            DBMerkleRoot := some ⟨List.replicate 24 2 ++ [0, 0, 0, 9] ++ List.replicate 4 3⟩,
            BTCConfirmed := true } ∧
      (DirBlockInfo.MarshalBinary
        { DBHash := some ⟨List.replicate 32 1⟩, BTCTxHash := some ⟨List.replicate 32 2⟩,
          BTCTxOffset := 7, BTCBlockHeight := 9,
          DBMerkleRoot := some ⟨List.replicate 32 3⟩, BTCConfirmed := false }).map List.length
        = some 101 := by
  decide
